import Mathlib

/-!
Verification of the towers (skyscraper puzzle) solver.

This file gives a shallow embedding of the solver's data model and operations
(main.go, solve.go) and proves or refutes the specification claims about them.
Go slices are modelled as Lean lists, Go map-based integer sets as finite sets
of naturals, and the mutating methods as state-passing functions returning the
updated board together with the flags the Go methods return.
-/

/-! ## Generic list helpers -/

/-- Read entry (r, c) of a list-of-lists, with default d (Go would panic out of
range; all in-range uses coincide). -/
def get2 {α : Type} (g : List (List α)) (r c : ℕ) (d : α) : α :=
  (g.getD r []).getD c d

/-- Write entry (r, c) of a list-of-lists (out of range: no-op). -/
def set2 {α : Type} (g : List (List α)) (r c : ℕ) (v : α) : List (List α) :=
  g.set r ((g.getD r []).set c v)

/-- Map a function of the index over a list, indices starting at k. -/
def mapIdxFrom {α : Type} (f : ℕ → α → α) : ℕ → List α → List α
  | _, [] => []
  | k, x :: xs => f k x :: mapIdxFrom f (k + 1) xs

/-- Map a function of both indices over a list-of-lists. -/
def mapIdx2 {α : Type} (f : ℕ → ℕ → α → α) (xss : List (List α)) : List (List α) :=
  mapIdxFrom (fun r row => mapIdxFrom (fun c x => f r c x) 0 row) 0 xss

theorem mapIdxFrom_length {α : Type} (f : ℕ → α → α) :
    ∀ (k : ℕ) (l : List α), (mapIdxFrom f k l).length = l.length := by
  intro k l
  induction l generalizing k with
  | nil => rfl
  | cons x xs ih => simp [mapIdxFrom, ih]

theorem mapIdxFrom_getD {α : Type} (f : ℕ → α → α) (d : α) :
    ∀ (k : ℕ) (l : List α) (j : ℕ),
      (mapIdxFrom f k l).getD j d = if j < l.length then f (k + j) (l.getD j d) else d := by
  intro k l
  induction l generalizing k with
  | nil => intro j; simp [mapIdxFrom]
  | cons x xs ih =>
    intro j
    cases j with
    | zero => simp [mapIdxFrom]
    | succ j =>
      simp only [mapIdxFrom, List.getD_cons_succ, ih (k + 1) j, List.length_cons]
      rcases Nat.lt_or_ge j xs.length with h | h
      · simp [h, Nat.succ_lt_succ h, Nat.add_assoc, Nat.add_comm 1 j]
      · simp [Nat.not_lt.2 h, Nat.not_lt.2 (Nat.succ_le_succ h)]

theorem foldl_inv {α σ : Type} (P : σ → Prop) (step : σ → α → σ) (l : List α) (init : σ)
    (h0 : P init) (hstep : ∀ s a, a ∈ l → P s → P (step s a)) : P (l.foldl step init) := by
  induction l generalizing init with
  | nil => exact h0
  | cons x xs ih =>
    exact ih (step init x) (hstep init x (by simp) h0)
      (fun s a ha hs => hstep s a (by simp [ha]) hs)

/-! ## Permutation generator (main.go, Permute / permuter.permute)

The Go generator keeps a scratch sequence of length R and a used-marker per
value, writing seq[depth] then recursing; the model accumulates the written
prefix instead, which carries the same information. -/

/-- Recursive permutation enumerator mirroring permuter.permute: depth-first
over the unused values; rem counts the slots still to fill (R - depth). -/
def permuteRec (N lowest : ℕ) : ℕ → List Bool → List ℕ → List (List ℕ)
  | 0, _, seq => [seq]
  | rem + 1, used, seq =>
      (List.range N).flatMap fun i =>
        if used.getD i false then []
        else permuteRec N lowest rem (used.set i true) (seq ++ [i + lowest])

/-- Permute mirrors Go's Permute: all sequences of r distinct integers drawn
from the inclusive range [low, high] (the Go capacity computation via fact has
no semantic effect and is omitted). -/
def Permute (low high r : ℕ) : List (List ℕ) :=
  let popSize := high - low + 1
  permuteRec popSize low r (List.replicate popSize false) []

/-- NPermuteR mirrors the Go helper of the same name. -/
def NPermuteR (n r : ℕ) : List (List ℕ) := Permute 1 n r

/-- PermuteN mirrors the Go helper of the same name. -/
def PermuteN (n : ℕ) : List (List ℕ) := Permute 1 n n

/-- Falling factorial with the same recursion shape as the generator:
ff m (k+1) = m * ff (m-1) k. -/
def ff : ℕ → ℕ → ℕ
  | _, 0 => 1
  | m, k + 1 => m * ff (m - 1) k

theorem ff_eq_descFactorial (m k : ℕ) : ff m k = m.descFactorial k := by
  induction k generalizing m with
  | zero => rfl
  | succ k ih =>
    cases m with
    | zero => simp [ff, Nat.zero_descFactorial_succ]
    | succ m => rw [ff, Nat.succ_descFactorial_succ, ih, Nat.succ_sub_one]

/-! ### Counting and structure lemmas for the generator -/

/-- Number of unused (false) markers. -/
def free (l : List Bool) : ℕ := l.countP (fun b => !b)

theorem getD_set_ne {α : Type} (l : List α) (i j : ℕ) (a d : α) (h : i ≠ j) :
    (l.set i a).getD j d = l.getD j d := by
  simp [List.getD_eq_getElem?_getD, List.getElem?_set_ne h]

theorem getD_set_self {α : Type} (l : List α) (i : ℕ) (a d : α) (h : i < l.length) :
    (l.set i a).getD i d = a := by
  simp [List.getD_eq_getElem?_getD, List.getElem?_set_self h]

theorem free_replicate (n : ℕ) : free (List.replicate n false) = n := by
  induction n with
  | zero => rfl
  | succ n ih => simpa [free, List.replicate_succ, List.countP_cons] using ih

theorem free_set_true (l : List Bool) :
    ∀ i : ℕ, i < l.length → l.getD i false = false → free (l.set i true) + 1 = free l := by
  induction l with
  | nil => intro i h; simp at h
  | cons b rest ih =>
    intro i hi hb
    cases i with
    | zero =>
      simp only [List.getD_cons_zero] at hb
      subst hb
      simp [free, List.countP_cons]
    | succ i =>
      simp only [List.getD_cons_succ] at hb
      have := ih i (by simpa using hi) hb
      simp only [List.set_cons_succ, free, List.countP_cons] at *
      omega

theorem countP_range_free (l : List Bool) :
    (List.range l.length).countP (fun i => !l.getD i false) = free l := by
  induction l with
  | nil => rfl
  | cons b rest ih =>
    rw [List.length_cons, List.range_succ_eq_map, List.countP_cons, List.countP_map]
    have : ((fun i => !(b :: rest).getD i false) ∘ Nat.succ) = (fun i => !rest.getD i false) := by
      funext i; rfl
    rw [this, ih]
    simp [free, List.countP_cons]

theorem sum_map_ite (p : ℕ → Bool) (C : ℕ) :
    ∀ l : List ℕ, (l.map fun i => if p i then 0 else C).sum = C * l.countP (fun i => !p i) := by
  intro l
  induction l with
  | nil => simp
  | cons x xs ih =>
    rw [List.map_cons, List.sum_cons, ih, List.countP_cons]
    by_cases h : p x <;> simp [h, Nat.mul_add, Nat.add_comm]

theorem permuteRec_length (N low : ℕ) :
    ∀ (rem : ℕ) (used : List Bool) (seq : List ℕ), used.length = N →
      (permuteRec N low rem used seq).length = ff (free used) rem := by
  intro rem
  induction rem with
  | zero => intro used seq _; rfl
  | succ rem ih =>
    intro used seq hlen
    rw [permuteRec, List.length_flatMap]
    have hmap : List.map
        (List.length ∘ fun i =>
          if used.getD i false then []
          else permuteRec N low rem (used.set i true) (seq ++ [i + low])) (List.range N) =
        List.map (fun i => if used.getD i false then 0 else ff (free used - 1) rem)
          (List.range N) := by
      apply List.map_congr_left
      intro i hi
      have hiN : i < N := List.mem_range.1 hi
      by_cases h : used.getD i false
      · simp only [Function.comp_apply, h, if_true]
        rfl
      · have h' : used.getD i false = false := by simpa using h
        have hfree : free (used.set i true) + 1 = free used :=
          free_set_true used i (hlen ▸ hiN) h'
        simp only [Function.comp_apply, h', Bool.false_eq_true, if_false]
        rw [ih (used.set i true) (seq ++ [i + low]) (by simpa using hlen)]
        congr 1
        omega
    rw [hmap, sum_map_ite, ← hlen, countP_range_free]
    rw [ff]
    ring

theorem permuteRec_mem (N low : ℕ) :
    ∀ (rem : ℕ) (used : List Bool) (seq s : List ℕ), used.length = N →
      s ∈ permuteRec N low rem used seq →
      ∃ t, s = seq ++ t ∧ t.length = rem ∧ t.Nodup ∧
        ∀ x ∈ t, ∃ i, i < N ∧ used.getD i false = false ∧ x = i + low := by
  intro rem
  induction rem with
  | zero =>
    intro used seq s _ hs
    simp only [permuteRec, List.mem_singleton] at hs
    exact ⟨[], by simp [hs], rfl, List.nodup_nil, by simp⟩
  | succ rem ih =>
    intro used seq s hlen hs
    rw [permuteRec] at hs
    obtain ⟨i, hi, hsi⟩ := List.mem_flatMap.1 hs
    have hiN : i < N := List.mem_range.1 hi
    by_cases hui : used.getD i false
    · rw [if_pos hui] at hsi
      exact absurd hsi (List.not_mem_nil s)
    · have hui' : used.getD i false = false := by simpa using hui
      rw [if_neg hui] at hsi
      obtain ⟨t', hst, htlen, htnd, htmem⟩ :=
        ih (used.set i true) (seq ++ [i + low]) s (by simpa using hlen) hsi
      refine ⟨(i + low) :: t', by simpa [List.append_assoc] using hst, by simpa using htlen, ?_, ?_⟩
      · refine List.nodup_cons.2 ⟨?_, htnd⟩
        intro hmem
        obtain ⟨j, hjN, hj, hx⟩ := htmem _ hmem
        have hij : j ≠ i := by
          intro h
          subst h
          rw [getD_set_self used j true false (hlen ▸ hjN)] at hj
          exact Bool.true_eq_false.mp hj
        exact hij (by omega)
      · intro x hx
        rcases List.mem_cons.1 hx with h | h
        · exact ⟨i, hiN, hui', h⟩
        · obtain ⟨j, hjN, hj, hx'⟩ := htmem x h
          have hij : j ≠ i := by
            intro h
            subst h
            rw [getD_set_self used j true false (hlen ▸ hjN)] at hj
            exact Bool.true_eq_false.mp hj
          rw [getD_set_ne used i j true false (Ne.symm hij)] at hj
          exact ⟨j, hjN, hj, hx'⟩

theorem permuteRec_nodup (N low : ℕ) :
    ∀ (rem : ℕ) (used : List Bool) (seq : List ℕ), used.length = N →
      (permuteRec N low rem used seq).Nodup := by
  intro rem
  induction rem with
  | zero => intro used seq _; exact List.nodup_singleton seq
  | succ rem ih =>
    intro used seq hlen
    rw [permuteRec]
    refine List.nodup_flatMap.2 ⟨?_, ?_⟩
    · intro i _
      by_cases h : used.getD i false
      · rw [if_pos h]; exact List.nodup_nil
      · rw [if_neg h]; exact ih _ _ (by simpa using hlen)
    · refine (List.nodup_range N).imp ?_
      intro i j hij s hsi hsj
      beta_reduce at hsi hsj
      by_cases hi : used.getD i false
      · rw [if_pos hi] at hsi
        exact absurd hsi (List.not_mem_nil s)
      · by_cases hj : used.getD j false
        · rw [if_pos hj] at hsj
          exact absurd hsj (List.not_mem_nil s)
        · rw [if_neg hi] at hsi
          rw [if_neg hj] at hsj
          obtain ⟨t, hst, -, -, -⟩ :=
            permuteRec_mem N low rem _ _ s (by simpa using hlen) hsi
          obtain ⟨t', hst', -, -, -⟩ :=
            permuteRec_mem N low rem _ _ s (by simpa using hlen) hsj
          rw [hst, List.append_assoc] at hst'
          rw [List.append_assoc] at hst'
          have := List.append_cancel_left hst'
          simp only [List.cons_append, List.nil_append, List.cons.injEq] at this
          exact hij (by omega)

/-- C2: for every low ≤ high and 1 ≤ r ≤ high-low+1, Permute(low, high, r)
returns exactly (high-low+1)!/(high-low+1-r)! sequences, pairwise distinct,
each of length r, with elements in [low, high] and no repeats in a sequence. -/
theorem C2_permute_complete (low high r : ℕ) (hlh : low ≤ high) (hr1 : 1 ≤ r)
    (hr : r ≤ high - low + 1) :
    (Permute low high r).length =
        Nat.factorial (high - low + 1) / Nat.factorial (high - low + 1 - r)
    ∧ (Permute low high r).Nodup
    ∧ ∀ s ∈ Permute low high r,
        s.length = r ∧ s.Nodup ∧ ∀ x ∈ s, low ≤ x ∧ x ≤ high := by
  have hlen : (List.replicate (high - low + 1) false).length = high - low + 1 :=
    List.length_replicate _ _
  refine ⟨?_, ?_, ?_⟩
  · rw [Permute, permuteRec_length _ _ r _ [] hlen, free_replicate,
      ff_eq_descFactorial, Nat.descFactorial_eq_div hr]
  · exact permuteRec_nodup _ _ r _ [] hlen
  · intro s hs
    obtain ⟨t, hst, htlen, htnd, htmem⟩ := permuteRec_mem _ low r _ [] s hlen hs
    rw [List.nil_append] at hst
    subst hst
    refine ⟨htlen, htnd, ?_⟩
    intro x hx
    obtain ⟨i, hiN, -, hxi⟩ := htmem x hx
    subst hxi
    omega

theorem C2_permute_complete_witness :
    (1 : ℕ) ≤ 3 ∧ (1 : ℕ) ≤ 2 ∧ (2 : ℕ) ≤ 3 - 1 + 1 ∧
    ((Permute 1 3 2).length = Nat.factorial 3 / Nat.factorial 1
      ∧ (Permute 1 3 2).Nodup
      ∧ ∀ s ∈ Permute 1 3 2, s.length = 2 ∧ s.Nodup ∧ ∀ x ∈ s, 1 ≤ x ∧ x ≤ 3) :=
  ⟨by decide, by decide, by decide,
    C2_permute_complete 1 3 2 (by decide) (by decide) (by decide)⟩

/-! ## Data model (main.go)

Go slices become lists, the map-based value sets become finite sets of
naturals, and NumEmpty keeps its Go int type as an integer. -/

def OBS_ROW : ℕ := 0

def OBS_COL : ℕ := 1

def OBS_FWD : ℕ := 0

def OBS_BWD : ℕ := 1

def EMPTY : ℕ := 0

/-- Observer mirrors the Go struct: a directional visibility clue. -/
structure Observer where
  type : ℕ
  index : ℕ
  direction : ℕ
  count : ℕ
deriving DecidableEq

/-- Board mirrors the Go struct field by field. -/
structure Board where
  grid : List (List ℕ)
  allowed : List (List (Finset ℕ))
  numEmpty : ℤ
  size : ℕ
  observers : List Observer
  obsSorted : List (Option Observer)
  perms : List (List ℕ)
  rowPerms : List (Option (List ℕ))
  colPerms : List (Option (List ℕ))
deriving DecidableEq

/-- Get mirrors Board.Get. -/
def Board.get (b : Board) (ri ci : ℕ) : ℕ := get2 b.grid ri ci 0

/-- Candidate set of a cell (the Go map read b.Allowed[ri][ci]). -/
def Board.allowedAt (b : Board) (ri ci : ℕ) : Finset ℕ := get2 b.allowed ri ci ∅

/-- IsAllowed mirrors the Go membership test on the candidate set. -/
def Board.isAllowed (b : Board) (ri ci n : ℕ) : Bool := decide (n ∈ b.allowedAt ri ci)

/-- Replace one cell's candidate set (the Go in-place map mutation). -/
def Board.setAllowedAt (b : Board) (ri ci : ℕ) (s : Finset ℕ) : Board :=
  { b with allowed := set2 b.allowed ri ci s }

/-- Delete one value from one cell's candidate set (the Go delete builtin). -/
def Board.eraseAllowed (b : Board) (ri ci v : ℕ) : Board :=
  b.setAllowedAt ri ci ((b.allowedAt ri ci).erase v)

/-- Set mirrors Board.Set: write the grid cell and maintain NumEmpty,
returning whether a change was made. -/
def Board.set (b : Board) (ri ci val : ℕ) : Board × Bool :=
  if b.get ri ci = val then (b, false)
  else if b.get ri ci ≠ EMPTY ∧ val = EMPTY then
    ({ b with numEmpty := b.numEmpty + 1, grid := set2 b.grid ri ci val }, true)
  else if b.get ri ci = EMPTY ∧ val ≠ EMPTY then
    ({ b with numEmpty := b.numEmpty - 1, grid := set2 b.grid ri ci val }, true)
  else ({ b with grid := set2 b.grid ri ci val }, true)

/-- One iteration of Mark's neighbor loop: delete val from the candidate
sets of cell (i, ci), unless i = ri, and of cell (ri, i), unless i = ci,
recording whether a deletion happened. -/
def Board.markNeighborStep (ri ci val : ℕ) (acc : Board × Bool) (i : ℕ) : Board × Bool :=
  let acc1 :=
    if i ≠ ri ∧ acc.1.isAllowed i ci val
    then (acc.1.eraseAllowed i ci val, true) else acc
  if i ≠ ci ∧ acc1.1.isAllowed ri i val
  then (acc1.1.eraseAllowed ri i val, true) else acc1

/-- One iteration of Mark's final loop over i = j+1 in 1..Size: delete every
value other than val from the marked cell's own candidate set. -/
def Board.markSelfStep (ri ci val : ℕ) (bb : Board) (j : ℕ) : Board :=
  if j + 1 ≠ val then bb.eraseAllowed ri ci (j + 1) else bb

/-- Mark mirrors Board.Mark: set the cell, delete the value from the
candidate sets of row and column neighbors (flag two records a deletion),
then collapse the cell's own candidate set onto the value. -/
def Board.mark (b : Board) (ri ci val : ℕ) : Board × Bool × Bool :=
  match b.set ri ci val with
  | (_, false) => (b, false, false)
  | (b1, true) =>
    let nb := (List.range b1.size).foldl (Board.markNeighborStep ri ci val) (b1, false)
    let b3 := (List.range b1.size).foldl (Board.markSelfStep ri ci val) nb.1
    (b3, true, nb.2)

/-- NumSet mirrors the Go helper: the set of integers 1..n. -/
def NumSet (n : ℕ) : Finset ℕ := Finset.Icc 1 n

/-- NewAllowed mirrors the Go helper: an n-by-n grid of full candidate sets. -/
def NewAllowed (n : ℕ) : List (List (Finset ℕ)) :=
  List.replicate n (List.replicate n (NumSet n))

/-- IntToCh mirrors the Go rune encoder; runes are modelled by their code
points. -/
def IntToCh (n : ℕ) : ℕ := if n > 9 then 97 + (n - 10) else 48 + n

/-- ChToInt mirrors the Go rune decoder (49..57 are the code points of
digits 1..9, 97..122 those of the lowercase letters). -/
def ChToInt (ch : ℕ) : ℕ :=
  if 49 ≤ ch ∧ ch ≤ 57 then ch - 48
  else if 97 ≤ ch ∧ ch ≤ 122 then ch - 97 + 10
  else 0

/-! ## Visibility evaluator (main.go) -/

/-- Forward scan of PermFitsObs for one observer: walk the sequence keeping
the running maximum and the count of new maxima, aborting as soon as the
count exceeds the target, and finally comparing it to the target. -/
def obsScan (count : ℕ) : List ℕ → ℕ → ℕ → Bool
  | [], vis, _ => decide (vis = count)
  | v :: rest, vis, highest =>
    if v > highest then
      if vis + 1 > count then false
      else obsScan count rest (vis + 1) v
    else obsScan count rest vis highest

/-- Plain visible count of a scan (no early abort), for stating the
equivalence between the two Go scans. -/
def visCount : List ℕ → ℕ → ℕ → ℕ
  | [], vis, _ => vis
  | v :: rest, vis, highest =>
    if v > highest then visCount rest (vis + 1) v else visCount rest vis highest

/-- PermFitsObs mirrors the Go function: the backward Go loop over
decreasing indices is the forward scan of the reversed sequence. -/
def PermFitsObs (p : List ℕ) (fwd bwd : Option Observer) : Bool :=
  (match fwd with
   | none => true
   | some o => obsScan o.count p 0 0) &&
  (match bwd with
   | none => true
   | some o => obsScan o.count p.reverse 0 0)

/-- PermsForObs mirrors the Go function: indices of the permutations
fitting both observers, nil when both observers are nil. -/
def Board.permsForObs (b : Board) (fwd bwd : Option Observer) : Option (List ℕ) :=
  match fwd, bwd with
  | none, none => none
  | _, _ =>
    some ((List.range b.perms.length).filter fun i =>
      PermFitsObs (b.perms.getD i []) fwd bwd)

/-- Walk of ObserverSatisfied: n steps from (ri, ci) moving by (dr, dc),
counting new maxima over the live grid. -/
def Board.obsWalk (b : Board) : ℕ → ℤ → ℤ → ℤ → ℤ → ℕ → ℕ → ℕ
  | 0, _, _, _, _, vis, _ => vis
  | n + 1, ri, ci, dr, dc, vis, highest =>
    let val := b.get ri.toNat ci.toNat
    if val > highest then b.obsWalk n (ri + dr) (ci + dc) dr dc (vis + 1) val
    else b.obsWalk n (ri + dr) (ci + dc) dr dc vis highest

/-- ObserverSatisfied mirrors the Go method: scan the observer's line on the
live grid in its direction and compare the visible count. An observer whose
type is neither row nor column scans without moving, as in Go. -/
def Board.observerSatisfied (b : Board) (o : Observer) : Bool :=
  let start : ℤ × ℤ × ℤ × ℤ :=
    if o.type = OBS_ROW then
      if o.direction = OBS_BWD then (o.index, (b.size : ℤ) - 1, 0, -1)
      else (o.index, 0, 0, 1)
    else if o.type = OBS_COL then
      if o.direction = OBS_BWD then ((b.size : ℤ) - 1, o.index, -1, 0)
      else (0, o.index, 1, 0)
    else (0, 0, 0, 0)
  decide (b.obsWalk b.size start.1 start.2.1 start.2.2.1 start.2.2.2 0 0 = o.count)

/-- Slot of an observer in ObsSorted, as computed by AddObserver. -/
def obsSlot (size : ℕ) (o : Observer) : ℕ :=
  if o.direction = OBS_BWD then
    (if o.type = OBS_ROW then o.index * 2 else size * 2 + o.index * 2) + 1
  else
    (if o.type = OBS_ROW then o.index * 2 else size * 2 + o.index * 2)

/-- AddObserver mirrors the Go method. Go panics when the slot is already
occupied; that branch is unreachable from the parser (each border cell is
visited once) and is modelled as the identity. -/
def Board.addObserver (b : Board) (o : Observer) : Board :=
  if o.count = 0 then b
  else if (b.obsSorted.getD (obsSlot b.size o) none).isSome then b
  else
    { b with
      observers := b.observers ++ [o]
      obsSorted := b.obsSorted.set (obsSlot b.size o) (some o) }

/-- PopulateRowColPerms mirrors the Go method: the Go counter pi visits
ObsSorted pairwise, rows first, so row ri reads entries 2ri and 2ri+1 and
column ci reads entries 2*size+2ci and 2*size+2ci+1. -/
def Board.populateRowColPerms (b : Board) : Board :=
  { b with
    rowPerms := (List.range b.size).map fun ri =>
      b.permsForObs (b.obsSorted.getD (2 * ri) none) (b.obsSorted.getD (2 * ri + 1) none),
    colPerms := (List.range b.size).map fun ci =>
      b.permsForObs (b.obsSorted.getD (2 * b.size + 2 * ci) none)
        (b.obsSorted.getD (2 * b.size + 2 * ci + 1) none) }

/-- Result of Board.Solved, which returns nil or a first error. -/
inductive SolvedResult where
  | ok : SolvedResult
  | emptyCells (n : ℤ) : SolvedResult
  | unsatisfied (o : Observer) : SolvedResult
deriving DecidableEq

/-- Solved mirrors the Go method: report the empty-cell count when nonzero,
else the first unsatisfied observer in registration order, else success. -/
def Board.solvedRes (b : Board) : SolvedResult :=
  if b.numEmpty ≠ 0 then SolvedResult.emptyCells b.numEmpty
  else
    match b.observers.find? (fun o => !(b.observerSatisfied o)) with
    | some o => SolvedResult.unsatisfied o
    | none => SolvedResult.ok

/-! ## Propagation engine (solve.go) -/

/-- Row-side support test inside TrimAllowedFromPerms: some surviving row
permutation places n at column ci, a nil list counting as support. -/
def Board.permSupportsRow (b : Board) (ri ci n : ℕ) : Bool :=
  match b.rowPerms.getD ri none with
  | none => true
  | some l => l.any fun permI => decide ((b.perms.getD permI []).getD ci 0 = n)

/-- Column-side support test inside TrimAllowedFromPerms: some surviving
column permutation places n at row ri, a nil list counting as support. -/
def Board.permSupportsCol (b : Board) (ri ci n : ℕ) : Bool :=
  match b.colPerms.getD ci none with
  | none => true
  | some l => l.any fun permI => decide ((b.perms.getD permI []).getD ri 0 = n)

/-- TrimAllowedFromPerms mirrors the Go method. The Go loop visits each cell
with ri, ci < Size and deletes a key n when the row-side check fails (then
continues to the next key) or when it passes, or is skipped for a nil list,
and the column-side check fails; so n survives exactly when both sides
support it. The support tests read only Perms, RowPerms and ColPerms, which
the loop never mutates, so the deletions amount to the per-cell filter
below, and the changed flag reports whether any deletion happened, i.e.
whether any cell's set shrank. -/
def Board.trimAllowedFromPerms (b : Board) : Board × Bool :=
  let allowed2 := mapIdx2 (fun ri ci a =>
    if ri < b.size ∧ ci < b.size then
      a.filter fun n => b.permSupportsRow ri ci n && b.permSupportsCol ri ci n
    else a) b.allowed
  ({ b with allowed := allowed2 }, decide (allowed2 ≠ b.allowed))

/-- Permutation test inside TrimPermsFromAllowed for row ri: every position
carries an allowed value (the Go inner loop with break). -/
def Board.rowPermOk (b : Board) (ri pi : ℕ) : Bool :=
  (List.range b.size).all fun i => b.isAllowed ri i ((b.perms.getD pi []).getD i 0)

/-- Permutation test inside TrimPermsFromAllowed for column ci. -/
def Board.colPermOk (b : Board) (ci pi : ℕ) : Bool :=
  (List.range b.size).all fun i => b.isAllowed i ci ((b.perms.getD pi []).getD i 0)

/-- TrimPermsFromAllowed mirrors the Go method: filter each non-nil line
list down to the permutations compatible with the candidate sets, replacing
the list only when its length shrank (the filtered list is equal to the old
one otherwise); the changed flag records whether any line shrank. The
filters read only Allowed, which this method never mutates. -/
def Board.trimPermsFromAllowed (b : Board) : Board × Bool :=
  let rowPerms2 := mapIdxFrom (fun ri op =>
    match op with
    | none => none
    | some rp =>
      let np := rp.filter fun pi => b.rowPermOk ri pi
      if rp.length ≠ np.length then some np else some rp) 0 b.rowPerms
  let colPerms2 := mapIdxFrom (fun ci op =>
    match op with
    | none => none
    | some cp =>
      let np := cp.filter fun pi => b.colPermOk ci pi
      if cp.length ≠ np.length then some np else some cp) 0 b.colPerms
  ({ b with rowPerms := rowPerms2, colPerms := colPerms2 },
    decide (rowPerms2 ≠ b.rowPerms) || decide (colPerms2 ≠ b.colPerms))

/-! ## Constructor (main.go, BoardFromString)

The text-to-integer transcoding of BoardFromString (line splitting,
trimming and ChToInt per rune) is the out-of-scope parsing layer; the
constructor is modelled from the parsed (N+2)-by-(N+2) integer matrix on,
mirroring lines 344-402 of main.go. -/

/-- Empty board state built at the top of BoardFromString: full candidate
sets, empty grid, NumEmpty = size*size, and nil observer and permutation
structures. -/
def boardInit (size : ℕ) : Board := {
  grid := List.replicate size (List.replicate size 0)
  allowed := NewAllowed size
  numEmpty := (size : ℤ) * (size : ℤ)
  size := size
  observers := []
  obsSorted := List.replicate (size * 4) none
  perms := []
  rowPerms := List.replicate size none
  colPerms := List.replicate size none }

/-- One cell of the parser's double loop over the (size+2)-square of parsed
integers: border cells register observers (corners skipped, zero counts
dropped by AddObserver) and interior cells are marked. -/
def parseCellStep (size ri : ℕ) (bb : Board) (cc : ℕ × ℕ) : Board :=
  if ri = 0 ∨ ri = size + 1 then
    if cc.1 = 0 ∨ cc.1 = size + 1 then bb
    else bb.addObserver {
      type := OBS_COL, index := cc.1 - 1,
      direction := if ri = size + 1 then OBS_BWD else OBS_FWD, count := cc.2 }
  else if cc.1 = 0 ∨ cc.1 = size + 1 then
    bb.addObserver {
      type := OBS_ROW, index := ri - 1,
      direction := if cc.1 = size + 1 then OBS_BWD else OBS_FWD, count := cc.2 }
  else (bb.mark (ri - 1) (cc.1 - 1) cc.2).1

/-- One row of the parser's double loop. -/
def parseRowStep (size : ℕ) (bb : Board) (rc : ℕ × List ℕ) : Board :=
  rc.2.enum.foldl (parseCellStep size rc.1) bb

def BoardFromInputs (inputs : List (List ℕ)) : Board :=
  ((({ inputs.enum.foldl (parseRowStep (inputs.length - 2)) (boardInit (inputs.length - 2))
    with perms := PermuteN (inputs.length - 2) } : Board
    ).populateRowColPerms).trimAllowedFromPerms).1

/-! ## Pattern heuristics (solve.go) -/

/-- NumSetsEqual mirrors the Go helper: two key sets coincide. -/
def NumSetsEqual (a b : Finset ℕ) : Bool := decide (a = b)

/-- SliceContains mirrors the Go helper. -/
def SliceContains (haystack : List ℕ) (needle : ℕ) : Bool := haystack.contains needle

/-- CheckRowNakedSet mirrors the Go method; note that, as in Go, emptiness
of the grid is only checked at indices[1:], not at indices[0]. -/
def Board.checkRowNakedSet (b : Board) (indices : List ℕ) (rowIndex : ℕ) : Bool :=
  match indices with
  | [] => false
  | i0 :: rest =>
    if (i0 :: rest).length ≠ (b.allowedAt rowIndex i0).card then false
    else rest.all fun idx =>
      decide (b.get rowIndex idx = EMPTY) &&
        NumSetsEqual (b.allowedAt rowIndex idx) (b.allowedAt rowIndex i0)

/-- CheckColumnNakedSet mirrors the Go method. -/
def Board.checkColumnNakedSet (b : Board) (indices : List ℕ) (colIndex : ℕ) : Bool :=
  match indices with
  | [] => false
  | i0 :: rest =>
    if (i0 :: rest).length ≠ (b.allowedAt i0 colIndex).card then false
    else rest.all fun idx =>
      decide (b.get idx colIndex = EMPTY) &&
        NumSetsEqual (b.allowedAt idx colIndex) (b.allowedAt i0 colIndex)

/-- DisallowAll mirrors the Go method: delete every key of toRemove from the
cell's candidate set, reporting whether any deletion happened. -/
def Board.DisallowAll (b : Board) (ri ci : ℕ) (toRemove : Finset ℕ) : Board × Bool :=
  if ((b.allowedAt ri ci) ∩ toRemove).Nonempty then
    (b.setAllowedAt ri ci ((b.allowedAt ri ci) \ toRemove), true)
  else (b, false)

/-- DisallowOthers mirrors the Go method: keep only the keys listed in
toKeep, reporting whether any deletion happened. -/
def Board.DisallowOthers (b : Board) (ri ci : ℕ) (toKeep : List ℕ) : Board × Bool :=
  if (b.allowedAt ri ci).filter (fun k => toKeep.contains k) = b.allowedAt ri ci then
    (b, false)
  else
    (b.setAllowedAt ri ci ((b.allowedAt ri ci).filter fun k => toKeep.contains k), true)

/-- TrimNakedSets mirrors the Go method. The method returns at the first
DisallowAll call that reports a change, and a DisallowAll call that reports
no change leaves the board untouched, so until that first success every
check and every candidate-set read sees the unmodified receiver; the search
is therefore the first hit, in Go's iteration order (all rows, then all
columns), of a successful elimination against the input board. -/
def Board.nakedRowHit (b : Board) (n : ℕ) : Option Board :=
  (List.range b.size).findSome? fun ri =>
    (Permute 0 (b.size - 1) n).findSome? fun idxs =>
      if b.checkRowNakedSet idxs ri then
        (List.range b.size).findSome? fun ci =>
          if SliceContains idxs ci then none
          else
            let d := b.DisallowAll ri ci (b.allowedAt ri (idxs.headD 0))
            if d.2 then some d.1 else none
      else none

def Board.nakedColHit (b : Board) (n : ℕ) : Option Board :=
  (List.range b.size).findSome? fun ci =>
    (Permute 0 (b.size - 1) n).findSome? fun idxs =>
      if b.checkColumnNakedSet idxs ci then
        (List.range b.size).findSome? fun ri =>
          if SliceContains idxs ri then none
          else
            let d := b.DisallowAll ri ci (b.allowedAt (idxs.headD 0) ci)
            if d.2 then some d.1 else none
      else none

def Board.trimNakedSets (b : Board) (n : ℕ) : Board × Bool :=
  match b.nakedRowHit n with
  | some b2 => (b2, true)
  | none =>
    match b.nakedColHit n with
    | some b2 => (b2, true)
    | none => (b, false)

/-- CheckRowFoundGroup mirrors the Go method: the candidate-position sets of
the given numbers in the row must all equal the first one and have size
len(numbers). Go indexes numberCells[0] and would panic on an empty numbers
slice; callers always pass nonempty subsets, and that case is modelled as
false. -/
def Board.checkRowFoundGroup (b : Board) (numbers : List ℕ) (rowIndex : ℕ) : Bool :=
  match numbers with
  | [] => false
  | n0 :: rest =>
    let cells := fun num => (Finset.range b.size).filter fun coli =>
      b.isAllowed rowIndex coli num
    if (cells n0).card ≠ (n0 :: rest).length then false
    else rest.all fun num => NumSetsEqual (cells num) (cells n0)

/-- CheckColFoundGroup mirrors the Go method. -/
def Board.checkColFoundGroup (b : Board) (numbers : List ℕ) (colIndex : ℕ) : Bool :=
  match numbers with
  | [] => false
  | n0 :: rest =>
    let cells := fun num => (Finset.range b.size).filter fun rowi =>
      b.isAllowed rowi colIndex num
    if (cells n0).card ≠ (n0 :: rest).length then false
    else rest.all fun num => NumSetsEqual (cells num) (cells n0)

/-- One cell visit of TrimFoundGroups: if the group-leading number is still
allowed at the cell, apply DisallowOthers there and accumulate the changed
flag. The Go code calls DisallowOthers once and reads both components; the
function is pure, so reading it twice is the same call. -/
def Board.tfgCellStep (nums : List ℕ) (ri ci : ℕ) (u : Board × Bool) : Board × Bool :=
  if u.1.isAllowed ri ci (nums.headD 0) then
    ((u.1.DisallowOthers ri ci nums).1, u.2 || (u.1.DisallowOthers ri ci nums).2)
  else u

/-- Row phase of TrimFoundGroups for one value subset. -/
def tfgRowPhase (sz : ℕ) (nums : List ℕ) (s : Board × Bool) : Board × Bool :=
  (List.range sz).foldl (fun t ri =>
    if t.1.checkRowFoundGroup nums ri then
      (List.range sz).foldl (fun u ci => Board.tfgCellStep nums ri ci u) t
    else t) s

/-- Column phase of TrimFoundGroups for one value subset. -/
def tfgColPhase (sz : ℕ) (nums : List ℕ) (s : Board × Bool) : Board × Bool :=
  (List.range sz).foldl (fun t ci =>
    if t.1.checkColFoundGroup nums ci then
      (List.range sz).foldl (fun u ri => Board.tfgCellStep nums ri ci u) t
    else t) s

/-- TrimFoundGroups mirrors the Go method: a full sweep over every size-n
value subset and every row and column, applying every elimination found and
accumulating the changed flag; checks along the sweep see the board as
already mutated by earlier eliminations, exactly as in Go (the loop bound
b.Size never changes during the sweep). -/
def Board.trimFoundGroups (b : Board) (n : ℕ) : Board × Bool :=
  (Permute 1 b.size n).foldl
    (fun s nums => tfgColPhase b.size nums (tfgRowPhase b.size nums s)) (b, false)

/-! ## Cell update lemmas -/

theorem set_getD_self_eq {α : Type} :
    ∀ (l : List α) (i : ℕ) (d : α), i < l.length → l.set i (l.getD i d) = l := by
  intro l
  induction l with
  | nil => intro i d h; simp at h
  | cons a as ih =>
    intro i d h
    cases i with
    | zero => rfl
    | succ i =>
      rw [List.getD_cons_succ, List.set_cons_succ, ih i d (by simpa using h)]

theorem set2_out {α : Type} (g : List (List α)) (r c : ℕ) (v : α)
    (h : ¬(r < g.length ∧ c < (g.getD r []).length)) : set2 g r c v = g := by
  unfold set2
  by_cases hr : r < g.length
  · have hc : ¬c < (g.getD r []).length := fun hc => h ⟨hr, hc⟩
    rw [List.set_eq_of_length_le (Nat.le_of_not_lt hc), set_getD_self_eq g r [] hr]
  · exact List.set_eq_of_length_le (Nat.le_of_not_lt hr)

theorem get2_set2 {α : Type} (g : List (List α)) (r c r' c' : ℕ) (v d : α) :
    get2 (set2 g r c v) r' c' d =
      if r' = r ∧ c' = c ∧ r < g.length ∧ c < (g.getD r []).length then v
      else get2 g r' c' d := by
  by_cases hin : r < g.length ∧ c < (g.getD r []).length
  · obtain ⟨hr, hc⟩ := hin
    by_cases hrr : r' = r
    · subst hrr
      by_cases hcc : c' = c
      · subst hcc
        rw [if_pos ⟨rfl, rfl, hr, hc⟩]
        unfold get2 set2
        rw [getD_set_self g r' ((g.getD r' []).set c' v) [] hr,
          getD_set_self (g.getD r' []) c' v d hc]
      · rw [if_neg (fun h => hcc h.2.1)]
        unfold get2 set2
        rw [getD_set_self g r' ((g.getD r' []).set c v) [] hr,
          getD_set_ne (g.getD r' []) c c' v d (fun h => hcc h.symm)]
    · rw [if_neg (fun h => hrr h.1)]
      unfold get2 set2
      rw [getD_set_ne g r r' _ [] (fun h => hrr h.symm)]
  · rw [set2_out g r c v hin]
    have : ¬(r' = r ∧ c' = c ∧ r < g.length ∧ c < (g.getD r []).length) := by
      intro h
      exact hin ⟨h.2.2.1, h.2.2.2⟩
    rw [if_neg this]

theorem set2_length {α : Type} (g : List (List α)) (r c : ℕ) (v : α) :
    (set2 g r c v).length = g.length := List.length_set g r _

theorem set2_row_length {α : Type} (g : List (List α)) (r c : ℕ) (v : α) (r' : ℕ) :
    ((set2 g r c v).getD r' []).length = (g.getD r' []).length := by
  by_cases hin : r < g.length ∧ c < (g.getD r []).length
  · by_cases hrr : r' = r
    · subst hrr
      unfold set2
      rw [getD_set_self g r' _ [] hin.1, List.length_set]
    · unfold set2
      rw [getD_set_ne g r r' _ [] (fun h => hrr h.symm)]
  · rw [set2_out g r c v hin]

theorem allowedAt_out (b : Board) (r c : ℕ)
    (h : ¬(r < b.allowed.length ∧ c < (b.allowed.getD r []).length)) :
    b.allowedAt r c = ∅ := by
  unfold Board.allowedAt get2
  by_cases hr : r < b.allowed.length
  · have hc : ¬c < (b.allowed.getD r []).length := fun hc => h ⟨hr, hc⟩
    exact List.getD_eq_default _ _ (Nat.le_of_not_lt hc)
  · rw [List.getD_eq_default _ _ (Nat.le_of_not_lt hr)]
    rfl

theorem allowedAt_setAllowedAt (b : Board) (ri ci : ℕ) (s : Finset ℕ) (r c : ℕ) :
    (b.setAllowedAt ri ci s).allowedAt r c =
      if r = ri ∧ c = ci ∧ ri < b.allowed.length ∧ ci < (b.allowed.getD ri []).length then s
      else b.allowedAt r c :=
  get2_set2 b.allowed ri ci r c s ∅

/-! ## Size measure and termination of MarkMandatory -/

/-- Total cardinality of a row of candidate sets. -/
def sumCards (l : List (Finset ℕ)) : ℕ := (l.map Finset.card).sum

/-- Total cardinality of all candidate sets of the board. -/
def totalAllowed (b : Board) : ℕ := (b.allowed.map sumCards).sum

theorem sumMap_set {α : Type} (m : α → ℕ) :
    ∀ (l : List α) (i : ℕ) (x d : α), i < l.length →
      ((l.set i x).map m).sum + m (l.getD i d) = (l.map m).sum + m x := by
  intro l
  induction l with
  | nil => intro i x d h; simp at h
  | cons a as ih =>
    intro i x d h
    cases i with
    | zero => simp [List.set_cons_zero]; omega
    | succ i =>
      simp only [List.set_cons_succ, List.map_cons, List.sum_cons, List.getD_cons_succ]
      have := ih i x d (by simpa using h)
      omega

theorem totalAllowed_setAllowedAt (b : Board) (ri ci : ℕ) (s : Finset ℕ)
    (hr : ri < b.allowed.length) (hc : ci < (b.allowed.getD ri []).length) :
    totalAllowed (b.setAllowedAt ri ci s) + (b.allowedAt ri ci).card =
      totalAllowed b + s.card := by
  have outer := sumMap_set sumCards b.allowed ri ((b.allowed.getD ri []).set ci s) [] hr
  have inner := sumMap_set Finset.card (b.allowed.getD ri []) ci s ∅ hc
  unfold totalAllowed Board.setAllowedAt set2 Board.allowedAt get2
  simp only [sumCards] at outer inner ⊢
  omega

theorem totalAllowed_setAllowedAt_le (b : Board) (ri ci : ℕ) (s : Finset ℕ)
    (h : s ⊆ b.allowedAt ri ci) :
    totalAllowed (b.setAllowedAt ri ci s) ≤ totalAllowed b := by
  by_cases hin : ri < b.allowed.length ∧ ci < (b.allowed.getD ri []).length
  · have heq := totalAllowed_setAllowedAt b ri ci s hin.1 hin.2
    have hcard : s.card ≤ (b.allowedAt ri ci).card := Finset.card_le_card h
    omega
  · unfold Board.setAllowedAt
    rw [set2_out b.allowed ri ci s hin]

theorem totalAllowed_setAllowedAt_lt (b : Board) (ri ci : ℕ) (s : Finset ℕ)
    (h : s ⊂ b.allowedAt ri ci) :
    totalAllowed (b.setAllowedAt ri ci s) < totalAllowed b := by
  by_cases hin : ri < b.allowed.length ∧ ci < (b.allowed.getD ri []).length
  · have heq := totalAllowed_setAllowedAt b ri ci s hin.1 hin.2
    have hcard : s.card < (b.allowedAt ri ci).card := Finset.card_lt_card h
    omega
  · rw [allowedAt_out b ri ci hin] at h
    exact absurd h (Finset.not_ssubset_empty s)

theorem totalAllowed_eraseAllowed_le (b : Board) (ri ci v : ℕ) :
    totalAllowed (b.eraseAllowed ri ci v) ≤ totalAllowed b :=
  totalAllowed_setAllowedAt_le b ri ci _ (Finset.erase_subset v _)

theorem totalAllowed_eraseAllowed_lt (b : Board) (ri ci v : ℕ)
    (h : v ∈ b.allowedAt ri ci) :
    totalAllowed (b.eraseAllowed ri ci v) < totalAllowed b :=
  totalAllowed_setAllowedAt_lt b ri ci _ (Finset.erase_ssubset h)

theorem set_allowed_eq (b : Board) (ri ci val : ℕ) :
    (b.set ri ci val).1.allowed = b.allowed := by
  unfold Board.set
  repeat' split
  all_goals rfl

theorem markNeighborStep_measure (ri ci val : ℕ) (T : ℕ) (s : Board × Bool) (i : ℕ)
    (hs : totalAllowed s.1 ≤ T ∧ (s.2 = true → totalAllowed s.1 < T)) :
    totalAllowed (Board.markNeighborStep ri ci val s i).1 ≤ T ∧
      ((Board.markNeighborStep ri ci val s i).2 = true →
        totalAllowed (Board.markNeighborStep ri ci val s i).1 < T) := by
  obtain ⟨hle, hlt⟩ := hs
  unfold Board.markNeighborStep
  by_cases h1 : i ≠ ri ∧ s.1.isAllowed i ci val
  · have hmem : val ∈ s.1.allowedAt i ci := of_decide_eq_true h1.2
    have e1 : totalAllowed (s.1.eraseAllowed i ci val) < totalAllowed s.1 :=
      totalAllowed_eraseAllowed_lt s.1 i ci val hmem
    rw [if_pos h1]
    dsimp only
    by_cases h2 : i ≠ ci ∧ (s.1.eraseAllowed i ci val).isAllowed ri i val
    · have hmem2 : val ∈ (s.1.eraseAllowed i ci val).allowedAt ri i :=
        of_decide_eq_true h2.2
      have e2 := totalAllowed_eraseAllowed_lt (s.1.eraseAllowed i ci val) ri i val hmem2
      rw [if_pos h2]
      dsimp only
      exact ⟨by omega, fun _ => by omega⟩
    · rw [if_neg h2]
      dsimp only
      exact ⟨by omega, fun _ => by omega⟩
  · rw [if_neg h1]
    by_cases h2 : i ≠ ci ∧ s.1.isAllowed ri i val
    · have hmem2 : val ∈ s.1.allowedAt ri i := of_decide_eq_true h2.2
      have e2 := totalAllowed_eraseAllowed_lt s.1 ri i val hmem2
      rw [if_pos h2]
      dsimp only
      exact ⟨by omega, fun _ => by omega⟩
    · rw [if_neg h2]
      exact ⟨hle, hlt⟩

theorem markSelfStep_le (ri ci val : ℕ) (bb : Board) (j : ℕ) :
    totalAllowed (Board.markSelfStep ri ci val bb j) ≤ totalAllowed bb := by
  unfold Board.markSelfStep
  by_cases h : j + 1 ≠ val
  · rw [if_pos h]
    exact totalAllowed_eraseAllowed_le bb ri ci (j + 1)
  · rw [if_neg h]

theorem mark_totalAllowed (b : Board) (ri ci val : ℕ) :
    totalAllowed ((b.mark ri ci val).1) ≤ totalAllowed b ∧
      ((b.mark ri ci val).2.2 = true →
        totalAllowed ((b.mark ri ci val).1) < totalAllowed b) := by
  unfold Board.mark
  cases hset : b.set ri ci val with
  | mk b1 flag =>
    cases flag with
    | false => exact ⟨Nat.le_refl _, fun h => by simp at h⟩
    | true =>
      have hb1 : totalAllowed b1 = totalAllowed b := by
        have h1 : b1.allowed = b.allowed := by
          have := set_allowed_eq b ri ci val
          rw [hset] at this
          exact this
        unfold totalAllowed
        rw [h1]
      show totalAllowed ((List.range b1.size).foldl (Board.markSelfStep ri ci val)
          ((List.range b1.size).foldl (Board.markNeighborStep ri ci val) (b1, false)).1) ≤
        totalAllowed b ∧
        (((List.range b1.size).foldl (Board.markNeighborStep ri ci val) (b1, false)).2 = true →
          totalAllowed ((List.range b1.size).foldl (Board.markSelfStep ri ci val)
            ((List.range b1.size).foldl (Board.markNeighborStep ri ci val) (b1, false)).1) <
            totalAllowed b)
      have hnb := foldl_inv
        (fun s : Board × Bool => totalAllowed s.1 ≤ totalAllowed b1 ∧
          (s.2 = true → totalAllowed s.1 < totalAllowed b1))
        (Board.markNeighborStep ri ci val) (List.range b1.size) (b1, false)
        ⟨Nat.le_refl _, fun h => by simp at h⟩
        (fun s a _ hs => markNeighborStep_measure ri ci val (totalAllowed b1) s a hs)
      have hself := foldl_inv
        (fun bb : Board => totalAllowed bb ≤
          totalAllowed ((List.range b1.size).foldl (Board.markNeighborStep ri ci val)
            (b1, false)).1)
        (Board.markSelfStep ri ci val) (List.range b1.size) _ (Nat.le_refl _)
        (fun bb j _ hbb => Nat.le_trans (markSelfStep_le ri ci val bb j) hbb)
      refine ⟨by omega, fun h2 => ?_⟩
      have := hnb.2 h2
      omega

/-! ## MarkMandatory (solve.go) -/

/-- One cell visit of MarkMandatory: if the candidate set is a singleton and
the cell is empty, mark its unique value, accumulating the changed and redo
flags. The Go code reads the map's only key; a singleton set, listed in
sorted order, lists exactly that key. -/
def Board.mmCellStep (ri ci : ℕ) (s : Board × Bool × Bool) : Board × Bool × Bool :=
  if (s.1.allowedAt ri ci).card ≠ 1 ∨ s.1.get ri ci ≠ EMPTY then s
  else
    match (s.1.allowedAt ri ci).sort (· ≤ ·) with
    | [k] =>
      let m := s.1.mark ri ci k
      (m.1, s.2.1 || m.2.1, s.2.2 || m.2.2)
    | _ => s

/-- One full pass of MarkMandatory over all cells in Go's iteration order;
the loop bounds come from the Allowed slice, whose shape never changes
during the pass. -/
def Board.mmPass (b : Board) : Board × Bool × Bool :=
  (List.range b.allowed.length).foldl (fun s ri =>
    (List.range ((b.allowed.getD ri []).length)).foldl
      (fun s ci => Board.mmCellStep ri ci s) s) (b, false, false)

theorem mmCellStep_measure (ri ci : ℕ) (T : ℕ) (s : Board × Bool × Bool)
    (hs : totalAllowed s.1 ≤ T ∧ (s.2.2 = true → totalAllowed s.1 < T)) :
    totalAllowed (Board.mmCellStep ri ci s).1 ≤ T ∧
      ((Board.mmCellStep ri ci s).2.2 = true →
        totalAllowed (Board.mmCellStep ri ci s).1 < T) := by
  obtain ⟨hle, hlt⟩ := hs
  unfold Board.mmCellStep
  by_cases hc : (s.1.allowedAt ri ci).card ≠ 1 ∨ s.1.get ri ci ≠ EMPTY
  · rw [if_pos hc]
    exact ⟨hle, hlt⟩
  · rw [if_neg hc]
    cases htl : (s.1.allowedAt ri ci).sort (· ≤ ·) with
    | nil => exact ⟨hle, hlt⟩
    | cons k rest =>
      cases rest with
      | nil =>
        dsimp only
        have hm := mark_totalAllowed s.1 ri ci k
        constructor
        · omega
        · intro h
          rcases Bool.or_eq_true_iff.mp h with h' | h'
          · have := hlt h'
            omega
          · have := hm.2 h'
            omega
      | cons k2 rest2 => exact ⟨hle, hlt⟩

theorem mmPass_measure (b : Board) :
    totalAllowed (b.mmPass).1 ≤ totalAllowed b ∧
      ((b.mmPass).2.2 = true → totalAllowed (b.mmPass).1 < totalAllowed b) := by
  unfold Board.mmPass
  exact foldl_inv
    (fun s : Board × Bool × Bool => totalAllowed s.1 ≤ totalAllowed b ∧
      (s.2.2 = true → totalAllowed s.1 < totalAllowed b))
    _ _ (b, false, false)
    ⟨Nat.le_refl _, fun h => by simp at h⟩
    (fun s ri _ hs => foldl_inv _ _ _ s hs
      (fun s2 ci _ hs2 => mmCellStep_measure ri ci (totalAllowed b) s2 hs2))

/-- MarkMandatory mirrors the Go method: run one pass; when the redo flag is
up (a neighbor candidate set shrank) run the whole method again on the
mutated board, discarding the recursive changed flag as Go does. The redo
flag forces a strict shrink of the candidate sets, which bounds the
recursion. -/
def Board.markMandatory (b : Board) : Board × Bool :=
  if h : (b.mmPass).2.2 = true then
    (((b.mmPass).1.markMandatory).1, (b.mmPass).2.1)
  else ((b.mmPass).1, (b.mmPass).2.1)
termination_by totalAllowed b
decreasing_by exact (mmPass_measure b).2 h

/-! ## Solve driver (solve.go, AutoSolve) -/

/-- Escalation loop of AutoSolve: try subset sizes n = 2, 3, ... while
n < Size - 1 and nothing changed yet. -/
def escalate (f : Board → ℕ → Board × Bool) (b : Board) : Board × Bool :=
  (List.range' 2 (b.size - 3)).foldl (fun s n => if s.2 then s else f s.1 n) (b, false)

/-- One iteration of AutoSolve's outer loop: the three propagation rules,
then, if nothing changed, naked sets at increasing sizes, then, if still
nothing changed, found groups at increasing sizes. -/
def Board.roundBody (b : Board) : Board × Bool :=
  let m := b.markMandatory
  let t1 := m.1.trimAllowedFromPerms
  let t2 := t1.1.trimPermsFromAllowed
  if m.2 || t1.2 || t2.2 then (t2.1, true)
  else
    let e1 := escalate Board.trimNakedSets t2.1
    if e1.2 then (e1.1, true)
    else escalate Board.trimFoundGroups e1.1

/-- Fueled AutoSolve loop: Go iterates while a round changed something and
the board is not solved. -/
def autoSolveLoop : ℕ → Board → Option Board
  | 0, _ => none
  | fuel + 1, b =>
    if b.solvedRes = SolvedResult.ok then some b
    else
      let r := b.roundBody
      if r.2 then autoSolveLoop fuel r.1 else some r.1

/-- Number of empty cells actually present in the grid. -/
def gridZeroCount (b : Board) : ℕ := (b.grid.map fun row => row.count 0).sum

/-- Length of an optional permutation list (0 for nil). -/
def optLen (o : Option (List ℕ)) : ℕ := (o.getD []).length

/-- Total length of all per-line candidate-permutation lists. -/
def totalPerms (b : Board) : ℕ :=
  (b.rowPerms.map optLen).sum + (b.colPerms.map optLen).sum

/-- Strictly decreasing measure of AutoSolve's loop. -/
def solveMeasure (b : Board) : ℕ := gridZeroCount b + totalAllowed b + totalPerms b

/-- AutoSolve mirrors the Go method; the Go loop is unbounded, and the C4
theorem shows the fuel below always suffices, so the model agrees with Go on
every run. -/
def Board.autoSolve (b : Board) : Option Board := autoSolveLoop (solveMeasure b + 1) b

/-! ## Solving operations as a syntax, for claims quantifying over call
sequences -/

inductive SolveOp where
  | mark (ri ci val : ℕ) : SolveOp
  | markMandatory : SolveOp
  | trimAllowedFromPerms : SolveOp
  | trimPermsFromAllowed : SolveOp
  | trimNakedSets (n : ℕ) : SolveOp
  | trimFoundGroups (n : ℕ) : SolveOp

/-- Run one solving operation, keeping the board and dropping the flags. -/
def applyOp (b : Board) : SolveOp → Board
  | SolveOp.mark ri ci val => (b.mark ri ci val).1
  | SolveOp.markMandatory => (b.markMandatory).1
  | SolveOp.trimAllowedFromPerms => (b.trimAllowedFromPerms).1
  | SolveOp.trimPermsFromAllowed => (b.trimPermsFromAllowed).1
  | SolveOp.trimNakedSets n => (b.trimNakedSets n).1
  | SolveOp.trimFoundGroups n => (b.trimFoundGroups n).1

/-- Run a sequence of solving operations. -/
def applyOps (b : Board) (ops : List SolveOp) : Board := ops.foldl applyOp b

/-! ## Claim C10: character encoding round trip -/

/-- C10: for every 0 ≤ n ≤ 35, ChToInt (IntToCh n) = n: the rendering
encoding (digits then lowercase letters) is losslessly inverted by the
parser over the whole representable range. -/
theorem C10_char_roundtrip : ∀ n : ℕ, n ≤ 35 → ChToInt (IntToCh n) = n := by
  decide

theorem C10_char_roundtrip_witness : (35 : ℕ) ≤ 35 ∧ ChToInt (IntToCh 35) = 35 :=
  ⟨by decide, C10_char_roundtrip 35 (by decide)⟩

/-! ## Claim C7: Set -/

/-- Concrete 2-by-2 board used to instantiate claims about Set. -/
def bC7 : Board := {
  grid := [[1, 0], [0, 0]]
  allowed := [[{1, 2}, {1, 2}], [{1, 2}, {1, 2}]]
  numEmpty := 3
  size := 2
  observers := []
  obsSorted := [none, none, none, none, none, none, none, none]
  perms := []
  rowPerms := [none, none]
  colPerms := [none, none] }

/-- C7: Set returns false and leaves the board unchanged when the cell
already holds the value; otherwise it writes the value (other cells
untouched), maintains NumEmpty by the empty-transition rule, and returns
true; and in every case no candidate set is touched. -/
theorem C7_set_spec (b : Board) (r c v : ℕ) :
    (b.get r c = v → b.set r c v = (b, false)) ∧
    (b.get r c ≠ v →
      (b.set r c v).2 = true ∧
      (r < b.grid.length → c < (b.grid.getD r []).length → (b.set r c v).1.get r c = v) ∧
      (∀ r' c', ¬(r' = r ∧ c' = c) → (b.set r c v).1.get r' c' = b.get r' c') ∧
      (b.set r c v).1.numEmpty =
        (if b.get r c ≠ EMPTY ∧ v = EMPTY then b.numEmpty + 1
         else if b.get r c = EMPTY ∧ v ≠ EMPTY then b.numEmpty - 1
         else b.numEmpty)) ∧
    (b.set r c v).1.allowed = b.allowed := by
  refine ⟨?_, ?_, set_allowed_eq b r c v⟩
  · intro h
    unfold Board.set
    rw [if_pos h]
  · intro hne
    have hgrid : (b.set r c v).1.grid = set2 b.grid r c v := by
      unfold Board.set
      rw [if_neg hne]
      repeat' split
      all_goals rfl
    have hflag : (b.set r c v).2 = true := by
      unfold Board.set
      rw [if_neg hne]
      repeat' split
      all_goals rfl
    refine ⟨hflag, ?_, ?_, ?_⟩
    · intro hr hc
      show get2 (b.set r c v).1.grid r c 0 = v
      rw [hgrid, get2_set2]
      rw [if_pos ⟨rfl, rfl, hr, hc⟩]
    · intro r' c' hne'
      show get2 (b.set r c v).1.grid r' c' 0 = b.get r' c'
      rw [hgrid, get2_set2]
      rw [if_neg (fun h => hne' ⟨h.1, h.2.1⟩)]
      rfl
    · unfold Board.set
      rw [if_neg hne]
      by_cases h1 : b.get r c ≠ EMPTY ∧ v = EMPTY
      · rw [if_pos h1, if_pos h1]
      · rw [if_neg h1, if_neg h1]
        by_cases h2 : b.get r c = EMPTY ∧ v ≠ EMPTY
        · rw [if_pos h2, if_pos h2]
        · rw [if_neg h2, if_neg h2]

theorem C7_set_spec_witness :
    bC7.set 0 0 1 = (bC7, false) ∧
    (bC7.set 0 1 2).2 = true ∧ (bC7.set 0 1 2).1.get 0 1 = 2 ∧
    (bC7.set 0 1 2).1.get 0 0 = bC7.get 0 0 ∧
    (bC7.set 0 1 2).1.numEmpty = bC7.numEmpty - 1 ∧
    (bC7.set 0 0 2).1.allowed = bC7.allowed := by
  have h1 := (C7_set_spec bC7 0 0 1).1 (by decide)
  have h2 := (C7_set_spec bC7 0 1 2).2.1 (by decide)
  have h3 := (C7_set_spec bC7 0 0 2).2.2
  exact ⟨h1, h2.1, h2.2.1 (by decide) (by decide),
    h2.2.2.1 0 0 (by decide), by rw [h2.2.2.2]; decide, h3⟩

/-! ## Claim C6: Solved -/

/-- Fully filled 2-by-2 board with a repeated value in row 0 (and in row 1),
with one satisfied observer: row 0 seen from the left shows one maximum. -/
def latinB : Board := {
  grid := [[1, 1], [2, 2]]
  allowed := [[{1}, {1}], [{2}, {2}]]
  numEmpty := 0
  size := 2
  observers := [{ type := OBS_ROW, index := 0, direction := OBS_FWD, count := 1 }]
  obsSorted := [some { type := OBS_ROW, index := 0, direction := OBS_FWD, count := 1 },
    none, none, none, none, none, none, none]
  perms := []
  rowPerms := [none, none]
  colPerms := [none, none] }

/-- C6: Solved reports the empty-cell count whenever NumEmpty is nonzero;
with NumEmpty zero it succeeds exactly when every registered observer is
satisfied, and otherwise names the first unsatisfied observer in
registration order; and it never checks row or column value-uniqueness, as
the fully filled all-observer-satisfying board latinB with a repeated value
in row 0 still succeeds. -/
theorem C6_solved_spec :
    (∀ b : Board,
      (b.numEmpty ≠ 0 → b.solvedRes = SolvedResult.emptyCells b.numEmpty) ∧
      (b.numEmpty = 0 →
        (b.solvedRes = SolvedResult.ok ↔ ∀ o ∈ b.observers, b.observerSatisfied o = true)) ∧
      (∀ o, b.solvedRes = SolvedResult.unsatisfied o →
        b.numEmpty = 0 ∧ b.observerSatisfied o = false ∧
        ∃ l1 l2, b.observers = l1 ++ o :: l2 ∧
          ∀ o' ∈ l1, b.observerSatisfied o' = true)) ∧
    (latinB.solvedRes = SolvedResult.ok ∧ latinB.numEmpty = 0 ∧
      (∀ r < latinB.size, ∀ c < latinB.size, latinB.get r c ≠ 0) ∧
      latinB.observers ≠ [] ∧ latinB.get 0 0 = latinB.get 0 1) := by
  constructor
  · intro b
    refine ⟨?_, ?_, ?_⟩
    · intro h
      unfold Board.solvedRes
      rw [if_pos h]
    · intro h
      unfold Board.solvedRes
      rw [if_neg (fun h2 => h2 h)]
      cases hf : b.observers.find? (fun o => !(b.observerSatisfied o)) with
      | none =>
        simp only [List.find?_eq_none] at hf
        constructor
        · intro _ o ho
          have := hf o ho
          simpa using this
        · intro _
          rfl
      | some o =>
        constructor
        · intro h2
          exact absurd h2 (by simp)
        · intro hall
          have hmem := List.mem_of_find?_eq_some hf
          have hp := List.find?_some hf
          rw [hall o hmem] at hp
          simp at hp
    · intro o ho
      unfold Board.solvedRes at ho
      by_cases h : b.numEmpty ≠ 0
      · rw [if_pos h] at ho
        exact absurd ho (by simp)
      · rw [if_neg h] at ho
        have hz : b.numEmpty = 0 := by omega
        cases hf : b.observers.find? (fun o => !(b.observerSatisfied o)) with
        | none =>
          rw [hf] at ho
          exact absurd ho (by simp)
        | some o2 =>
          rw [hf] at ho
          have ho2 : o2 = o := by
            cases ho
            rfl
          subst ho2
          obtain ⟨hpo, as, bs, heq, hprev⟩ := List.find?_eq_some.mp hf
          refine ⟨hz, by simpa using hpo, as, bs, heq, ?_⟩
          · intro o' ho'
            have := hprev o' ho'
            simpa using this
  · exact ⟨by decide, by decide, by decide, by decide, by decide⟩

theorem C6_solved_spec_witness :
    bC7.solvedRes = SolvedResult.emptyCells bC7.numEmpty ∧
    (latinB.solvedRes = SolvedResult.ok ↔
      ∀ o ∈ latinB.observers, latinB.observerSatisfied o = true) :=
  ⟨(C6_solved_spec.1 bC7).1 (by decide), (C6_solved_spec.1 latinB).2.1 (by decide)⟩

/-! ## Claim C8: visibility consistency between the two scans -/

theorem visCount_mono : ∀ (l : List ℕ) (vis highest : ℕ), vis ≤ visCount l vis highest := by
  intro l
  induction l with
  | nil => intro vis highest; exact Nat.le_refl _
  | cons v rest ih =>
    intro vis highest
    unfold visCount
    by_cases h : v > highest
    · rw [if_pos h]
      exact Nat.le_trans (Nat.le_succ vis) (ih (vis + 1) v)
    · rw [if_neg h]
      exact ih vis highest

theorem obsScan_eq_visCount :
    ∀ (l : List ℕ) (count vis highest : ℕ),
      obsScan count l vis highest = decide (visCount l vis highest = count) := by
  intro l
  induction l with
  | nil => intro count vis highest; rfl
  | cons v rest ih =>
    intro count vis highest
    unfold obsScan visCount
    by_cases h : v > highest
    · rw [if_pos h, if_pos h]
      by_cases h2 : vis + 1 > count
      · rw [if_pos h2]
        have hmono := visCount_mono rest (vis + 1) v
        have : visCount rest (vis + 1) v ≠ count := by omega
        simp [this]
      · rw [if_neg h2]
        exact ih count (vis + 1) v
    · rw [if_neg h, if_neg h]
      exact ih count vis highest

/-- Value of observer o's line at forward position i. -/
def lineVal (b : Board) (o : Observer) (i : ℕ) : ℕ :=
  if o.type = OBS_ROW then b.get o.index i else b.get i o.index

/-- Observer o's line read in increasing index order. -/
def lineSeq (b : Board) (o : Observer) : List ℕ := (List.range b.size).map (lineVal b o)

theorem obsWalk_eq_visCount (b : Board) :
    ∀ (n : ℕ) (ri ci dr dc : ℤ) (vis highest : ℕ),
      b.obsWalk n ri ci dr dc vis highest =
        visCount ((List.range n).map fun i : ℕ =>
          b.get (ri + (i : ℤ) * dr).toNat (ci + (i : ℤ) * dc).toNat) vis highest := by
  intro n
  induction n with
  | zero => intro ri ci dr dc vis highest; rfl
  | succ n ih =>
    intro ri ci dr dc vis highest
    rw [List.range_succ_eq_map, List.map_cons, List.map_map]
    have hmap : ((fun i : ℕ =>
        b.get (ri + (i : ℤ) * dr).toNat (ci + (i : ℤ) * dc).toNat) ∘ Nat.succ) =
        (fun i : ℕ =>
          b.get ((ri + dr) + (i : ℤ) * dr).toNat ((ci + dc) + (i : ℤ) * dc).toNat) := by
      funext i
      have h1 : ri + (i.succ : ℤ) * dr = (ri + dr) + (i : ℤ) * dr := by
        push_cast
        ring
      have h2 : ci + (i.succ : ℤ) * dc = (ci + dc) + (i : ℤ) * dc := by
        push_cast
        ring
      rw [Function.comp_apply, h1, h2]
    rw [hmap]
    unfold Board.obsWalk visCount
    have hval : b.get (ri + ((0 : ℕ) : ℤ) * dr).toNat (ci + ((0 : ℕ) : ℤ) * dc).toNat =
        b.get ri.toNat ci.toNat := by
      norm_num
    rw [hval]
    by_cases h : b.get ri.toNat ci.toNat > highest
    · rw [if_pos h, if_pos h, ih]
    · rw [if_neg h, if_neg h, ih]

theorem map_range_reverse {α : Type} (f : ℕ → α) (n : ℕ) :
    ((List.range n).map f).reverse = (List.range n).map fun i => f (n - 1 - i) := by
  rw [← List.map_reverse, List.range_eq_range', List.reverse_range', List.map_map,
    ← List.range_eq_range']
  apply List.map_congr_left
  intro i _
  simp only [Function.comp_apply, Nat.zero_add]

theorem observerSatisfied_row_fwd (b : Board) (o : Observer) (ht : o.type = OBS_ROW)
    (hd : o.direction ≠ OBS_BWD) :
    b.observerSatisfied o = decide (visCount (lineSeq b o) 0 0 = o.count) := by
  unfold Board.observerSatisfied
  rw [if_pos ht, if_neg hd]
  dsimp only
  rw [obsWalk_eq_visCount]
  have hlist : ((List.range b.size).map fun i : ℕ =>
      b.get ((o.index : ℤ) + (i : ℤ) * 0).toNat ((0 : ℤ) + (i : ℤ) * 1).toNat) =
      lineSeq b o := by
    unfold lineSeq
    apply List.map_congr_left
    intro i _
    have h1 : ((o.index : ℤ) + (i : ℤ) * 0).toNat = o.index := by omega
    have h2 : ((0 : ℤ) + (i : ℤ) * 1).toNat = i := by omega
    rw [h1, h2, lineVal, if_pos ht]
  rw [hlist]

theorem observerSatisfied_row_bwd (b : Board) (o : Observer) (ht : o.type = OBS_ROW)
    (hd : o.direction = OBS_BWD) :
    b.observerSatisfied o = decide (visCount (lineSeq b o).reverse 0 0 = o.count) := by
  unfold Board.observerSatisfied
  rw [if_pos ht, if_pos hd]
  dsimp only
  rw [obsWalk_eq_visCount]
  have hlist : ((List.range b.size).map fun i : ℕ =>
      b.get ((o.index : ℤ) + (i : ℤ) * 0).toNat (((b.size : ℤ) - 1) + (i : ℤ) * (-1)).toNat) =
      (lineSeq b o).reverse := by
    unfold lineSeq
    rw [map_range_reverse]
    apply List.map_congr_left
    intro i hi
    have hilt : i < b.size := List.mem_range.1 hi
    have h1 : ((o.index : ℤ) + (i : ℤ) * 0).toNat = o.index := by omega
    have h2 : (((b.size : ℤ) - 1) + (i : ℤ) * (-1)).toNat = b.size - 1 - i := by omega
    rw [h1, h2, lineVal, if_pos ht]
  rw [hlist]

theorem observerSatisfied_col_fwd (b : Board) (o : Observer) (ht : o.type = OBS_COL)
    (hd : o.direction ≠ OBS_BWD) :
    b.observerSatisfied o = decide (visCount (lineSeq b o) 0 0 = o.count) := by
  have htr : ¬(o.type = OBS_ROW) := by
    rw [ht]
    decide
  unfold Board.observerSatisfied
  rw [if_neg htr, if_pos ht, if_neg hd]
  dsimp only
  rw [obsWalk_eq_visCount]
  have hlist : ((List.range b.size).map fun i : ℕ =>
      b.get ((0 : ℤ) + (i : ℤ) * 1).toNat ((o.index : ℤ) + (i : ℤ) * 0).toNat) =
      lineSeq b o := by
    unfold lineSeq
    apply List.map_congr_left
    intro i _
    have h1 : ((o.index : ℤ) + (i : ℤ) * 0).toNat = o.index := by omega
    have h2 : ((0 : ℤ) + (i : ℤ) * 1).toNat = i := by omega
    rw [h1, h2, lineVal, if_neg htr]
  rw [hlist]

theorem observerSatisfied_col_bwd (b : Board) (o : Observer) (ht : o.type = OBS_COL)
    (hd : o.direction = OBS_BWD) :
    b.observerSatisfied o = decide (visCount (lineSeq b o).reverse 0 0 = o.count) := by
  have htr : ¬(o.type = OBS_ROW) := by
    rw [ht]
    decide
  unfold Board.observerSatisfied
  rw [if_neg htr, if_pos ht, if_pos hd]
  dsimp only
  rw [obsWalk_eq_visCount]
  have hlist : ((List.range b.size).map fun i : ℕ =>
      b.get (((b.size : ℤ) - 1) + (i : ℤ) * (-1)).toNat ((o.index : ℤ) + (i : ℤ) * 0).toNat) =
      (lineSeq b o).reverse := by
    unfold lineSeq
    rw [map_range_reverse]
    apply List.map_congr_left
    intro i hi
    have hilt : i < b.size := List.mem_range.1 hi
    have h1 : ((o.index : ℤ) + (i : ℤ) * 0).toNat = o.index := by omega
    have h2 : (((b.size : ℤ) - 1) + (i : ℤ) * (-1)).toNat = b.size - 1 - i := by omega
    rw [h1, h2, lineVal, if_neg htr]
  rw [hlist]

theorem permFitsObs_fwd_only (p : List ℕ) (o : Observer) :
    PermFitsObs p (some o) none = decide (visCount p 0 0 = o.count) := by
  unfold PermFitsObs
  dsimp only
  rw [obsScan_eq_visCount, Bool.and_true]

theorem permFitsObs_bwd_only (p : List ℕ) (o : Observer) :
    PermFitsObs p none (some o) = decide (visCount p.reverse 0 0 = o.count) := by
  unfold PermFitsObs
  dsimp only
  rw [obsScan_eq_visCount, Bool.true_and]

/-- C8: on a completely filled, zero-free line, the live-grid scan of
ObserverSatisfied and the permutation-filter scan of PermFitsObs agree, with
the observer supplied on its matching side and the other side nil. -/
theorem C8_visibility_consistency (b : Board) (o : Observer)
    (htype : o.type = OBS_ROW ∨ o.type = OBS_COL)
    (hfull : ∀ i < b.size, lineVal b o i ≠ 0) :
    b.observerSatisfied o =
      PermFitsObs (lineSeq b o)
        (if o.direction = OBS_BWD then none else some o)
        (if o.direction = OBS_BWD then some o else none) := by
  by_cases hdir : o.direction = OBS_BWD
  · rw [if_pos hdir, if_pos hdir, permFitsObs_bwd_only]
    rcases htype with ht | ht
    · exact observerSatisfied_row_bwd b o ht hdir
    · exact observerSatisfied_col_bwd b o ht hdir
  · rw [if_neg hdir, if_neg hdir, permFitsObs_fwd_only]
    rcases htype with ht | ht
    · exact observerSatisfied_row_fwd b o ht hdir
    · exact observerSatisfied_col_fwd b o ht hdir

theorem C8_visibility_consistency_witness :
    latinB.observerSatisfied
        { type := OBS_ROW, index := 0, direction := OBS_FWD, count := 1 } =
      PermFitsObs (lineSeq latinB { type := OBS_ROW, index := 0, direction := OBS_FWD, count := 1 })
        (some { type := OBS_ROW, index := 0, direction := OBS_FWD, count := 1 }) none := by
  have h := C8_visibility_consistency latinB
    { type := OBS_ROW, index := 0, direction := OBS_FWD, count := 1 }
    (Or.inl rfl) (by decide)
  simpa using h

/-! ## Claim C1: permutation-to-candidate narrowing -/

theorem get2_mapIdx2 {α : Type} (f : ℕ → ℕ → α → α) (g : List (List α)) (r c : ℕ) (d : α) :
    get2 (mapIdx2 f g) r c d =
      if r < g.length ∧ c < (g.getD r []).length then f r c (get2 g r c d)
      else get2 g r c d := by
  unfold mapIdx2 get2
  rw [mapIdxFrom_getD _ [] 0 g r]
  by_cases hr : r < g.length
  · rw [if_pos hr]
    simp only [Nat.zero_add]
    rw [mapIdxFrom_getD _ d 0 (g.getD r []) c]
    by_cases hc : c < (g.getD r []).length
    · rw [if_pos hc, if_pos ⟨hr, hc⟩]
      simp only [Nat.zero_add]
    · rw [if_neg hc, if_neg (fun h => hc h.2),
        List.getD_eq_default _ _ (Nat.le_of_not_lt hc)]
  · rw [if_neg hr, if_neg (fun h => hr h.1),
      List.getD_eq_default _ _ (Nat.le_of_not_lt hr)]

theorem trimAllowedFromPerms_allowedAt (b : Board) (r c : ℕ) :
    (b.trimAllowedFromPerms).1.allowedAt r c =
      if r < b.allowed.length ∧ c < (b.allowed.getD r []).length then
        (if r < b.size ∧ c < b.size then
          (b.allowedAt r c).filter fun n =>
            b.permSupportsRow r c n && b.permSupportsCol r c n
         else b.allowedAt r c)
      else b.allowedAt r c := by
  unfold Board.trimAllowedFromPerms Board.allowedAt
  rw [get2_mapIdx2]

/-- C1 (amended): for every in-range cell and candidate value, the narrowing
keeps the value exactly when the row side supports it (some surviving row
permutation places it there, or the row list is nil) and the column side
supports it likewise; it removes the value when either side fails, even if
the other side supports it. -/
theorem C1_trim_allowed_iff (b : Board) (r c v : ℕ)
    (hr : r < b.size) (hc : c < b.size)
    (hra : r < b.allowed.length) (hca : c < (b.allowed.getD r []).length)
    (hv : v ∈ b.allowedAt r c) :
    v ∈ (b.trimAllowedFromPerms).1.allowedAt r c ↔
      (b.permSupportsRow r c v = true ∧ b.permSupportsCol r c v = true) := by
  rw [trimAllowedFromPerms_allowedAt, if_pos ⟨hra, hca⟩, if_pos ⟨hr, hc⟩,
    Finset.mem_filter]
  simp [hv, Bool.and_eq_true]

/-- Board on which the claim as stated fails: the single surviving row
permutation for row 0 is (1, 2), which does not place 2 at column 0, while
the column list for column 0 still holds the permutation (2, 1), which
does. -/
def c1B : Board := {
  grid := [[0, 0], [0, 0]]
  allowed := [[{1, 2}, {1, 2}], [{1, 2}, {1, 2}]]
  numEmpty := 4
  size := 2
  observers := []
  obsSorted := [none, none, none, none, none, none, none, none]
  perms := [[1, 2], [2, 1]]
  rowPerms := [some [0], none]
  colPerms := [some [0, 1], none] }

/-- C1 is refuted as stated: value 2 at cell (0, 0) is supported by the
column's surviving permutation list, yet TrimAllowedFromPerms removes it,
because the row's list alone fails to support it. -/
theorem C1_counterexample :
    2 ∈ c1B.allowedAt 0 0 ∧
    c1B.permSupportsCol 0 0 2 = true ∧
    2 ∉ (c1B.trimAllowedFromPerms).1.allowedAt 0 0 := by decide

theorem C1_trim_allowed_iff_witness :
    (1 ∈ (c1B.trimAllowedFromPerms).1.allowedAt 0 0 ↔
      (c1B.permSupportsRow 0 0 1 = true ∧ c1B.permSupportsCol 0 0 1 = true)) :=
  C1_trim_allowed_iff c1B 0 0 1 (by decide) (by decide) (by decide) (by decide) (by decide)

/-! ## Claim C9: single-change naked sets versus full-sweep found groups -/

theorem nakedHit_inner_shape (b : Board) (ri ci : ℕ) (S : Finset ℕ) (b2 : Board)
    (h : (if (b.DisallowAll ri ci S).2 then some (b.DisallowAll ri ci S).1 else none) =
      some b2) :
    ((b.allowedAt ri ci) ∩ S).Nonempty ∧
      b2 = b.setAllowedAt ri ci ((b.allowedAt ri ci) \ S) := by
  by_cases hd : (b.DisallowAll ri ci S).2 = true
  · rw [if_pos hd] at h
    have hb2 : (b.DisallowAll ri ci S).1 = b2 := by
      cases h
      rfl
    unfold Board.DisallowAll at hd hb2
    by_cases hne : ((b.allowedAt ri ci) ∩ S).Nonempty
    · rw [if_pos hne] at hb2
      exact ⟨hne, hb2.symm⟩
    · rw [if_neg hne] at hd
      exact absurd hd (by simp)
  · rw [if_neg hd] at h
    exact absurd h (by simp)

theorem nakedRowHit_shape (b : Board) (n : ℕ) (b2 : Board)
    (h : b.nakedRowHit n = some b2) :
    ∃ ri ci S, ((b.allowedAt ri ci) ∩ S).Nonempty ∧
      b2 = b.setAllowedAt ri ci ((b.allowedAt ri ci) \ S) := by
  unfold Board.nakedRowHit at h
  obtain ⟨ri, -, h⟩ := List.exists_of_findSome?_eq_some h
  beta_reduce at h
  obtain ⟨idxs, -, h⟩ := List.exists_of_findSome?_eq_some h
  beta_reduce at h
  by_cases hchk : b.checkRowNakedSet idxs ri = true
  · rw [if_pos hchk] at h
    obtain ⟨ci, -, h⟩ := List.exists_of_findSome?_eq_some h
    beta_reduce at h
    by_cases hsc : SliceContains idxs ci = true
    · rw [if_pos hsc] at h
      exact absurd h (by simp)
    · rw [if_neg hsc] at h
      obtain ⟨hne, hb2⟩ := nakedHit_inner_shape b ri ci _ b2 h
      exact ⟨ri, ci, _, hne, hb2⟩
  · rw [if_neg hchk] at h
    exact absurd h (by simp)

theorem nakedColHit_shape (b : Board) (n : ℕ) (b2 : Board)
    (h : b.nakedColHit n = some b2) :
    ∃ ri ci S, ((b.allowedAt ri ci) ∩ S).Nonempty ∧
      b2 = b.setAllowedAt ri ci ((b.allowedAt ri ci) \ S) := by
  unfold Board.nakedColHit at h
  obtain ⟨ci, -, h⟩ := List.exists_of_findSome?_eq_some h
  beta_reduce at h
  obtain ⟨idxs, -, h⟩ := List.exists_of_findSome?_eq_some h
  beta_reduce at h
  by_cases hchk : b.checkColumnNakedSet idxs ci = true
  · rw [if_pos hchk] at h
    obtain ⟨ri, -, h⟩ := List.exists_of_findSome?_eq_some h
    beta_reduce at h
    by_cases hsc : SliceContains idxs ri = true
    · rw [if_pos hsc] at h
      exact absurd h (by simp)
    · rw [if_neg hsc] at h
      obtain ⟨hne, hb2⟩ := nakedHit_inner_shape b ri ci _ b2 h
      exact ⟨ri, ci, _, hne, hb2⟩
  · rw [if_neg hchk] at h
    exact absurd h (by simp)

theorem trimNakedSets_cases (b : Board) (n : ℕ) :
    b.trimNakedSets n = (b, false) ∨
    ∃ ri ci S, ((b.allowedAt ri ci) ∩ S).Nonempty ∧
      b.trimNakedSets n = (b.setAllowedAt ri ci ((b.allowedAt ri ci) \ S), true) := by
  unfold Board.trimNakedSets
  cases hrow : b.nakedRowHit n with
  | some b2 =>
    obtain ⟨ri, ci, S, hne, hb2⟩ := nakedRowHit_shape b n b2 hrow
    exact Or.inr ⟨ri, ci, S, hne, by rw [hb2]⟩
  | none =>
    cases hcol : b.nakedColHit n with
    | some b2 =>
      obtain ⟨ri, ci, S, hne, hb2⟩ := nakedColHit_shape b n b2 hcol
      exact Or.inr ⟨ri, ci, S, hne, by rw [hb2]⟩
    | none => exact Or.inl rfl

/-- Board with a found group: in row 0 the values 1 and 2 are each allowed
exactly at columns 0 and 1, so the sweep clears value 3 from both cells in
one call. -/
def tfgB : Board := {
  grid := [[0, 0, 0], [0, 0, 0], [0, 0, 0]]
  allowed := [[{1, 2, 3}, {1, 2, 3}, {3}],
    [{1, 2, 3}, {1, 2, 3}, {1, 2, 3}],
    [{1, 2, 3}, {1, 2, 3}, {1, 2, 3}]]
  numEmpty := 9
  size := 3
  observers := []
  obsSorted := [none, none, none, none, none, none, none, none, none, none, none, none]
  perms := []
  rowPerms := [none, none, none]
  colPerms := [none, none, none] }

set_option maxRecDepth 8000 in
/-- C9: one call to TrimNakedSets mutates at most one cell's candidate set,
returning right after the first successful elimination (and leaves the board
untouched when it returns false); one call to TrimFoundGroups, in contrast,
sweeps to the end and here applies eliminations to two cells, (0,0) and
(0,1), before returning true. -/
theorem C9_single_change_vs_sweep :
    (∀ (b : Board) (n : ℕ),
      ((b.trimNakedSets n).2 = false → (b.trimNakedSets n).1 = b) ∧
      ∃ p : ℕ × ℕ, ∀ q : ℕ × ℕ, q ≠ p →
        (b.trimNakedSets n).1.allowedAt q.1 q.2 = b.allowedAt q.1 q.2) ∧
    ((tfgB.trimFoundGroups 2).2 = true ∧
      (tfgB.trimFoundGroups 2).1.allowedAt 0 0 = {1, 2} ∧
      (tfgB.trimFoundGroups 2).1.allowedAt 0 1 = {1, 2} ∧
      tfgB.allowedAt 0 0 ≠ {1, 2} ∧ tfgB.allowedAt 0 1 ≠ {1, 2}) := by
  constructor
  · intro b n
    rcases trimNakedSets_cases b n with h | ⟨ri, ci, S, hne, h⟩
    · constructor
      · intro _
        rw [h]
      · exact ⟨(0, 0), fun q _ => by rw [h]⟩
    · constructor
      · intro hf
        rw [h] at hf
        exact absurd hf (by simp)
      · refine ⟨(ri, ci), fun q hq => ?_⟩
        rw [h]
        show (b.setAllowedAt ri ci ((b.allowedAt ri ci) \ S)).allowedAt q.1 q.2 =
          b.allowedAt q.1 q.2
        rw [allowedAt_setAllowedAt]
        rw [if_neg (fun hcond => hq (Prod.ext hcond.1 hcond.2.1))]
  · exact ⟨by decide, by decide, by decide, by decide, by decide⟩

theorem C9_single_change_vs_sweep_witness :
    (c1B.trimNakedSets 2).1 = c1B :=
  (C9_single_change_vs_sweep.1 c1B 2).1 (by decide)

/-! ## Claim C3: monotonicity of all solving operations -/

/-- Order on optional permutation lists: nil stays nil, and a present list
may only lose entries (sublist), never gain one. -/
def OptSub : Option (List ℕ) → Option (List ℕ) → Prop
  | none, none => True
  | some a, some b => a.Sublist b
  | _, _ => False

theorem optSub_refl (o : Option (List ℕ)) : OptSub o o := by
  cases o with
  | none => trivial
  | some a => exact List.Sublist.refl a

theorem optSub_trans {o1 o2 o3 : Option (List ℕ)} (h1 : OptSub o1 o2) (h2 : OptSub o2 o3) :
    OptSub o1 o3 := by
  cases o1 <;> cases o2 <;> cases o3 <;> simp [OptSub] at *
  exact h1.trans h2

theorem optSub_len {o1 o2 : Option (List ℕ)} (h : OptSub o1 o2) : optLen o1 ≤ optLen o2 := by
  cases o1 <;> cases o2 <;> simp [OptSub, optLen] at *
  exact h.length_le

/-- Entrywise OptSub between two equally long lists of per-line
permutation lists. -/
def PermsLe (a b : List (Option (List ℕ))) : Prop :=
  a.length = b.length ∧ ∀ i, OptSub (a.getD i none) (b.getD i none)

theorem permsLe_refl (a : List (Option (List ℕ))) : PermsLe a a :=
  ⟨rfl, fun i => optSub_refl _⟩

theorem permsLe_trans {a b c : List (Option (List ℕ))} (h1 : PermsLe a b) (h2 : PermsLe b c) :
    PermsLe a c :=
  ⟨h1.1.trans h2.1, fun i => optSub_trans (h1.2 i) (h2.2 i)⟩

/-- The monotonicity relation of claim C3: candidate sets only lose members
and per-line permutation lists only lose entries. -/
def Shrinks (b2 b : Board) : Prop :=
  (∀ r c, b2.allowedAt r c ⊆ b.allowedAt r c) ∧
  PermsLe b2.rowPerms b.rowPerms ∧ PermsLe b2.colPerms b.colPerms

theorem shrinks_refl (b : Board) : Shrinks b b :=
  ⟨fun _ _ => Finset.Subset.refl _, permsLe_refl _, permsLe_refl _⟩

theorem shrinks_trans {b1 b2 b3 : Board} (h1 : Shrinks b1 b2) (h2 : Shrinks b2 b3) :
    Shrinks b1 b3 :=
  ⟨fun r c => (h1.1 r c).trans (h2.1 r c), permsLe_trans h1.2.1 h2.2.1,
    permsLe_trans h1.2.2 h2.2.2⟩

theorem allowedAt_congr {b2 b : Board} (h : b2.allowed = b.allowed) (r c : ℕ) :
    b2.allowedAt r c = b.allowedAt r c := by
  unfold Board.allowedAt
  rw [h]

theorem shrinks_of_fields {b2 b : Board} (hrp : b2.rowPerms = b.rowPerms)
    (hcp : b2.colPerms = b.colPerms)
    (hal : ∀ r c, b2.allowedAt r c ⊆ b.allowedAt r c) : Shrinks b2 b :=
  ⟨hal, hrp ▸ permsLe_refl _, hcp ▸ permsLe_refl _⟩

theorem shrinks_setAllowedAt (b : Board) (ri ci : ℕ) (s : Finset ℕ)
    (h : s ⊆ b.allowedAt ri ci) : Shrinks (b.setAllowedAt ri ci s) b := by
  refine shrinks_of_fields rfl rfl ?_
  intro r c
  rw [allowedAt_setAllowedAt]
  by_cases hc : r = ri ∧ c = ci ∧ ri < b.allowed.length ∧ ci < (b.allowed.getD ri []).length
  · rw [if_pos hc, hc.1, hc.2.1]
    exact h
  · rw [if_neg hc]

theorem shrinks_eraseAllowed (b : Board) (ri ci v : ℕ) :
    Shrinks (b.eraseAllowed ri ci v) b :=
  shrinks_setAllowedAt b ri ci _ (Finset.erase_subset v _)

theorem set_rowPerms_eq (b : Board) (ri ci val : ℕ) :
    (b.set ri ci val).1.rowPerms = b.rowPerms := by
  unfold Board.set
  repeat' split
  all_goals rfl

theorem set_colPerms_eq (b : Board) (ri ci val : ℕ) :
    (b.set ri ci val).1.colPerms = b.colPerms := by
  unfold Board.set
  repeat' split
  all_goals rfl

theorem set_shrinks (b : Board) (ri ci val : ℕ) : Shrinks (b.set ri ci val).1 b :=
  shrinks_of_fields (set_rowPerms_eq b ri ci val) (set_colPerms_eq b ri ci val)
    (fun r c => by rw [allowedAt_congr (set_allowed_eq b ri ci val)])

theorem markNeighborStep_shrinks (ri ci val : ℕ) (s : Board × Bool) (i : ℕ) :
    Shrinks (Board.markNeighborStep ri ci val s i).1 s.1 := by
  unfold Board.markNeighborStep
  by_cases h1 : i ≠ ri ∧ s.1.isAllowed i ci val
  · rw [if_pos h1]
    dsimp only
    by_cases h2 : i ≠ ci ∧ (s.1.eraseAllowed i ci val).isAllowed ri i val
    · rw [if_pos h2]
      exact shrinks_trans (shrinks_eraseAllowed _ ri i val) (shrinks_eraseAllowed _ i ci val)
    · rw [if_neg h2]
      exact shrinks_eraseAllowed _ i ci val
  · rw [if_neg h1]
    by_cases h2 : i ≠ ci ∧ s.1.isAllowed ri i val
    · rw [if_pos h2]
      exact shrinks_eraseAllowed _ ri i val
    · rw [if_neg h2]
      exact shrinks_refl _

theorem markSelfStep_shrinks (ri ci val : ℕ) (bb : Board) (j : ℕ) :
    Shrinks (Board.markSelfStep ri ci val bb j) bb := by
  unfold Board.markSelfStep
  by_cases h : j + 1 ≠ val
  · rw [if_pos h]
    exact shrinks_eraseAllowed bb ri ci (j + 1)
  · rw [if_neg h]
    exact shrinks_refl bb

theorem mark_shrinks (b : Board) (ri ci val : ℕ) : Shrinks (b.mark ri ci val).1 b := by
  unfold Board.mark
  cases hset : b.set ri ci val with
  | mk b1 flag =>
    cases flag with
    | false => exact shrinks_refl b
    | true =>
      have hb1 : Shrinks b1 b := by
        have := set_shrinks b ri ci val
        rw [hset] at this
        exact this
      show Shrinks ((List.range b1.size).foldl (Board.markSelfStep ri ci val)
        ((List.range b1.size).foldl (Board.markNeighborStep ri ci val) (b1, false)).1) b
      have hnb := foldl_inv (fun s : Board × Bool => Shrinks s.1 b)
        (Board.markNeighborStep ri ci val) (List.range b1.size) (b1, false) hb1
        (fun s a _ hs => shrinks_trans (markNeighborStep_shrinks ri ci val s a) hs)
      exact foldl_inv (fun bb : Board => Shrinks bb b)
        (Board.markSelfStep ri ci val) (List.range b1.size) _ hnb
        (fun bb j _ hbb => shrinks_trans (markSelfStep_shrinks ri ci val bb j) hbb)

theorem mmCellStep_shrinks (ri ci : ℕ) (s : Board × Bool × Bool) :
    Shrinks (Board.mmCellStep ri ci s).1 s.1 := by
  unfold Board.mmCellStep
  by_cases hc : (s.1.allowedAt ri ci).card ≠ 1 ∨ s.1.get ri ci ≠ EMPTY
  · rw [if_pos hc]
    exact shrinks_refl _
  · rw [if_neg hc]
    cases htl : (s.1.allowedAt ri ci).sort (· ≤ ·) with
    | nil => exact shrinks_refl _
    | cons k rest =>
      cases rest with
      | nil => exact mark_shrinks s.1 ri ci k
      | cons k2 rest2 => exact shrinks_refl _

theorem mmPass_shrinks (b : Board) : Shrinks (b.mmPass).1 b := by
  unfold Board.mmPass
  exact foldl_inv (fun s : Board × Bool × Bool => Shrinks s.1 b) _ _ (b, false, false)
    (shrinks_refl b)
    (fun s ri _ hs => foldl_inv _ _ _ s hs
      (fun s2 ci _ hs2 => shrinks_trans (mmCellStep_shrinks ri ci s2) hs2))

theorem markMandatory_shrinks (b : Board) : Shrinks (b.markMandatory).1 b := by
  suffices h : ∀ (n : ℕ) (b : Board), totalAllowed b ≤ n → Shrinks (b.markMandatory).1 b from
    h (totalAllowed b) b (Nat.le_refl _)
  intro n
  induction n with
  | zero =>
    intro b hb
    rw [Board.markMandatory]
    have hm := mmPass_measure b
    split
    · rename_i h
      have := hm.2 h
      omega
    · exact mmPass_shrinks b
  | succ n ih =>
    intro b hb
    rw [Board.markMandatory]
    split
    · rename_i h
      have hlt := (mmPass_measure b).2 h
      exact shrinks_trans (ih (b.mmPass).1 (by omega)) (mmPass_shrinks b)
    · exact mmPass_shrinks b

theorem trimAllowedFromPerms_shrinks (b : Board) :
    Shrinks (b.trimAllowedFromPerms).1 b := by
  refine shrinks_of_fields rfl rfl ?_
  intro r c
  rw [trimAllowedFromPerms_allowedAt]
  by_cases h1 : r < b.allowed.length ∧ c < (b.allowed.getD r []).length
  · rw [if_pos h1]
    by_cases h2 : r < b.size ∧ c < b.size
    · rw [if_pos h2]
      exact Finset.filter_subset _ _
    · rw [if_neg h2]
  · rw [if_neg h1]

theorem permsLe_mapIdxFrom (g : ℕ → Option (List ℕ) → Option (List ℕ))
    (l : List (Option (List ℕ))) (h : ∀ i op, OptSub (g i op) op) :
    PermsLe (mapIdxFrom g 0 l) l := by
  refine ⟨mapIdxFrom_length g 0 l, fun i => ?_⟩
  rw [mapIdxFrom_getD g none 0 l i]
  by_cases hi : i < l.length
  · rw [if_pos hi]
    exact h _ _
  · rw [if_neg hi]
    rw [List.getD_eq_default _ _ (Nat.le_of_not_lt hi)]
    trivial

theorem trimPermsFromAllowed_shrinks (b : Board) :
    Shrinks (b.trimPermsFromAllowed).1 b := by
  refine ⟨fun r c => ?_, ?_, ?_⟩
  · rw [allowedAt_congr
      (show (b.trimPermsFromAllowed).1.allowed = b.allowed from rfl)]
  · refine permsLe_mapIdxFrom _ b.rowPerms ?_
    intro i op
    cases op with
    | none => trivial
    | some rp =>
      dsimp only
      split
      · exact List.filter_sublist rp
      · exact List.Sublist.refl rp
  · refine permsLe_mapIdxFrom _ b.colPerms ?_
    intro i op
    cases op with
    | none => trivial
    | some cp =>
      dsimp only
      split
      · exact List.filter_sublist cp
      · exact List.Sublist.refl cp

theorem disallowAll_shrinks (b : Board) (ri ci : ℕ) (toRemove : Finset ℕ) :
    Shrinks (b.DisallowAll ri ci toRemove).1 b := by
  unfold Board.DisallowAll
  split
  · exact shrinks_setAllowedAt b ri ci _ (Finset.sdiff_subset)
  · exact shrinks_refl b

theorem disallowOthers_shrinks (b : Board) (ri ci : ℕ) (toKeep : List ℕ) :
    Shrinks (b.DisallowOthers ri ci toKeep).1 b := by
  unfold Board.DisallowOthers
  split
  · exact shrinks_refl b
  · exact shrinks_setAllowedAt b ri ci _ (Finset.filter_subset _ _)

theorem tfgCellStep_shrinks (nums : List ℕ) (ri ci : ℕ) (u : Board × Bool) :
    Shrinks (Board.tfgCellStep nums ri ci u).1 u.1 := by
  unfold Board.tfgCellStep
  split
  · exact disallowOthers_shrinks u.1 ri ci nums
  · exact shrinks_refl _

theorem tfgRowPhase_shrinks (sz : ℕ) (nums : List ℕ) (s : Board × Bool) :
    Shrinks (tfgRowPhase sz nums s).1 s.1 := by
  unfold tfgRowPhase
  refine foldl_inv (fun t : Board × Bool => Shrinks t.1 s.1) _ _ s (shrinks_refl _) ?_
  intro t ri _ ht
  dsimp only
  split
  · refine foldl_inv (fun u : Board × Bool => Shrinks u.1 s.1) _ _ t ht ?_
    intro u ci _ hu
    exact shrinks_trans (tfgCellStep_shrinks nums ri ci u) hu
  · exact ht

theorem tfgColPhase_shrinks (sz : ℕ) (nums : List ℕ) (s : Board × Bool) :
    Shrinks (tfgColPhase sz nums s).1 s.1 := by
  unfold tfgColPhase
  refine foldl_inv (fun t : Board × Bool => Shrinks t.1 s.1) _ _ s (shrinks_refl _) ?_
  intro t ci _ ht
  dsimp only
  split
  · refine foldl_inv (fun u : Board × Bool => Shrinks u.1 s.1) _ _ t ht ?_
    intro u ri _ hu
    exact shrinks_trans (tfgCellStep_shrinks nums ri ci u) hu
  · exact ht

theorem trimNakedSets_shrinks (b : Board) (n : ℕ) :
    Shrinks (b.trimNakedSets n).1 b := by
  rcases trimNakedSets_cases b n with h | ⟨ri, ci, S, -, h⟩
  · rw [h]
    exact shrinks_refl b
  · rw [h]
    exact shrinks_setAllowedAt b ri ci _ (Finset.sdiff_subset)

theorem trimFoundGroups_shrinks (b : Board) (n : ℕ) :
    Shrinks (b.trimFoundGroups n).1 b := by
  unfold Board.trimFoundGroups
  refine foldl_inv (fun s : Board × Bool => Shrinks s.1 b) _ _ (b, false)
    (shrinks_refl b) ?_
  intro s nums _ hs
  exact shrinks_trans (tfgColPhase_shrinks b.size nums (tfgRowPhase b.size nums s))
    (shrinks_trans (tfgRowPhase_shrinks b.size nums s) hs)

theorem applyOp_shrinks (b : Board) (op : SolveOp) : Shrinks (applyOp b op) b := by
  cases op with
  | mark ri ci val => exact mark_shrinks b ri ci val
  | markMandatory => exact markMandatory_shrinks b
  | trimAllowedFromPerms => exact trimAllowedFromPerms_shrinks b
  | trimPermsFromAllowed => exact trimPermsFromAllowed_shrinks b
  | trimNakedSets n => exact trimNakedSets_shrinks b n
  | trimFoundGroups n => exact trimFoundGroups_shrinks b n

/-- C3: across any sequence of solving operations (Mark, MarkMandatory,
TrimAllowedFromPerms, TrimPermsFromAllowed, TrimNakedSets, TrimFoundGroups),
no cell's candidate set ever gains a member and no line's
candidate-permutation list ever gains an entry: the final candidate sets are
subsets of the initial ones, the final permutation lists are sublists of the
initial ones (nil staying nil), and so set sizes and list lengths are
non-increasing. -/
theorem C3_monotone_ops (b : Board) (ops : List SolveOp) :
    (∀ r c, (applyOps b ops).allowedAt r c ⊆ b.allowedAt r c) ∧
    (∀ r c, ((applyOps b ops).allowedAt r c).card ≤ (b.allowedAt r c).card) ∧
    PermsLe (applyOps b ops).rowPerms b.rowPerms ∧
    PermsLe (applyOps b ops).colPerms b.colPerms ∧
    (∀ i, optLen ((applyOps b ops).rowPerms.getD i none) ≤
      optLen (b.rowPerms.getD i none)) ∧
    (∀ i, optLen ((applyOps b ops).colPerms.getD i none) ≤
      optLen (b.colPerms.getD i none)) := by
  have hs : Shrinks (applyOps b ops) b := by
    unfold applyOps
    exact foldl_inv (fun bb : Board => Shrinks bb b) applyOp ops b (shrinks_refl b)
      (fun bb op _ h => shrinks_trans (applyOp_shrinks bb op) h)
  exact ⟨hs.1, fun r c => Finset.card_le_card (hs.1 r c), hs.2.1, hs.2.2,
    fun i => optSub_len (hs.2.1.2 i), fun i => optSub_len (hs.2.2.2 i)⟩

/-! ## Claim C5: candidate sets of decided cells -/

theorem get_out (b : Board) (r c : ℕ)
    (h : ¬(r < b.grid.length ∧ c < (b.grid.getD r []).length)) : b.get r c = 0 := by
  unfold Board.get get2
  by_cases hr : r < b.grid.length
  · have hc : ¬c < (b.grid.getD r []).length := fun hc => h ⟨hr, hc⟩
    exact List.getD_eq_default _ _ (Nat.le_of_not_lt hc)
  · rw [List.getD_eq_default _ _ (Nat.le_of_not_lt hr)]
    rfl

theorem set_size_eq (b : Board) (ri ci val : ℕ) : (b.set ri ci val).1.size = b.size := by
  unfold Board.set
  repeat' split
  all_goals rfl

theorem set_grid_eq (b : Board) (ri ci val : ℕ) (h : b.get ri ci ≠ val) :
    (b.set ri ci val).1.grid = set2 b.grid ri ci val := by
  unfold Board.set
  rw [if_neg h]
  repeat' split
  all_goals rfl

theorem set_flag_true (b : Board) (ri ci val : ℕ) (h : b.get ri ci ≠ val) :
    (b.set ri ci val).2 = true := by
  unfold Board.set
  rw [if_neg h]
  repeat' split
  all_goals rfl

theorem eraseAllowed_grid (b : Board) (ri ci v : ℕ) :
    (b.eraseAllowed ri ci v).grid = b.grid := rfl

theorem eraseAllowed_size (b : Board) (ri ci v : ℕ) :
    (b.eraseAllowed ri ci v).size = b.size := rfl

theorem allowedAt_eraseAllowed_sub (b : Board) (ri ci v : ℕ) :
    (b.eraseAllowed ri ci v).allowedAt ri ci ⊆ (b.allowedAt ri ci).erase v := by
  unfold Board.eraseAllowed
  rw [allowedAt_setAllowedAt]
  by_cases h : ri = ri ∧ ci = ci ∧ ri < b.allowed.length ∧ ci < (b.allowed.getD ri []).length
  · rw [if_pos h]
  · rw [if_neg h]
    have hout : ¬(ri < b.allowed.length ∧ ci < (b.allowed.getD ri []).length) := by
      intro h2
      exact h ⟨rfl, rfl, h2.1, h2.2⟩
    rw [allowedAt_out b ri ci hout]
    exact Finset.empty_subset _

theorem mark_noop (b : Board) (ri ci val : ℕ) (h : b.get ri ci = val) :
    b.mark ri ci val = (b, false, false) := by
  have hset : b.set ri ci val = (b, false) := by
    unfold Board.set
    rw [if_pos h]
  unfold Board.mark
  rw [hset]

theorem markNeighborStep_grid (ri ci val : ℕ) (s : Board × Bool) (i : ℕ) :
    (Board.markNeighborStep ri ci val s i).1.grid = s.1.grid ∧
      (Board.markNeighborStep ri ci val s i).1.size = s.1.size := by
  unfold Board.markNeighborStep
  by_cases h1 : i ≠ ri ∧ s.1.isAllowed i ci val
  · rw [if_pos h1]
    dsimp only
    split
    · exact ⟨rfl, rfl⟩
    · exact ⟨rfl, rfl⟩
  · rw [if_neg h1]
    dsimp only
    split
    · exact ⟨rfl, rfl⟩
    · exact ⟨rfl, rfl⟩

theorem markSelfStep_grid (ri ci val : ℕ) (bb : Board) (j : ℕ) :
    (Board.markSelfStep ri ci val bb j).grid = bb.grid ∧
      (Board.markSelfStep ri ci val bb j).size = bb.size := by
  unfold Board.markSelfStep
  split
  · exact ⟨rfl, rfl⟩
  · exact ⟨rfl, rfl⟩

theorem mark_grid (b : Board) (ri ci val : ℕ) (h : b.get ri ci ≠ val) :
    (b.mark ri ci val).1.grid = set2 b.grid ri ci val ∧
      (b.mark ri ci val).1.size = b.size := by
  unfold Board.mark
  cases hset : b.set ri ci val with
  | mk b1 flag =>
    cases flag with
    | false =>
      have := set_flag_true b ri ci val h
      rw [hset] at this
      exact absurd this (by simp)
    | true =>
      have hg1 : b1.grid = set2 b.grid ri ci val := by
        have := set_grid_eq b ri ci val h
        rw [hset] at this
        exact this
      have hs1 : b1.size = b.size := by
        have := set_size_eq b ri ci val
        rw [hset] at this
        exact this
      show ((List.range b1.size).foldl (Board.markSelfStep ri ci val)
        ((List.range b1.size).foldl (Board.markNeighborStep ri ci val) (b1, false)).1).grid =
          set2 b.grid ri ci val ∧
        ((List.range b1.size).foldl (Board.markSelfStep ri ci val)
        ((List.range b1.size).foldl (Board.markNeighborStep ri ci val) (b1, false)).1).size =
          b.size
      have hnb := foldl_inv (fun s : Board × Bool => s.1.grid = b1.grid ∧ s.1.size = b1.size)
        (Board.markNeighborStep ri ci val) (List.range b1.size) (b1, false) ⟨rfl, rfl⟩
        (fun s a _ hs => by
          have := markNeighborStep_grid ri ci val s a
          exact ⟨this.1.trans hs.1, this.2.trans hs.2⟩)
      have hself := foldl_inv (fun bb : Board => bb.grid = b1.grid ∧ bb.size = b1.size)
        (Board.markSelfStep ri ci val) (List.range b1.size) _ hnb
        (fun bb j _ hbb => by
          have := markSelfStep_grid ri ci val bb j
          exact ⟨this.1.trans hbb.1, this.2.trans hbb.2⟩)
      exact ⟨hself.1.trans hg1, hself.2.trans hs1⟩

theorem mark_size (b : Board) (ri ci val : ℕ) : (b.mark ri ci val).1.size = b.size := by
  by_cases h : b.get ri ci = val
  · rw [mark_noop b ri ci val h]
  · exact (mark_grid b ri ci val h).2

theorem selfFold_bound (ri ci val : ℕ) :
    ∀ (l : List ℕ) (bb : Board) (k : ℕ),
      k ∈ (l.foldl (Board.markSelfStep ri ci val) bb).allowedAt ri ci →
      k ∈ bb.allowedAt ri ci ∧ ∀ j ∈ l, j + 1 ≠ val → k ≠ j + 1 := by
  intro l
  induction l with
  | nil =>
    intro bb k h
    exact ⟨h, by simp⟩
  | cons j rest ih =>
    intro bb k h
    rw [List.foldl_cons] at h
    obtain ⟨h1, h2⟩ := ih (Board.markSelfStep ri ci val bb j) k h
    unfold Board.markSelfStep at h1
    by_cases hj : j + 1 ≠ val
    · rw [if_pos hj] at h1
      have h3 := allowedAt_eraseAllowed_sub bb ri ci (j + 1) h1
      rw [Finset.mem_erase] at h3
      refine ⟨h3.2, ?_⟩
      intro j' hj' hne
      rcases List.mem_cons.1 hj' with hjj | hmem
      · rw [hjj]
        exact h3.1
      · exact h2 j' hmem hne
    · rw [if_neg hj] at h1
      refine ⟨h1, ?_⟩
      intro j' hj' hne
      rcases List.mem_cons.1 hj' with hjj | hmem
      · rw [hjj] at hne
        exact absurd hne hj
      · exact h2 j' hmem hne

theorem mark_self_allowed (b : Board) (ri ci val k : ℕ)
    (hne : b.get ri ci ≠ val)
    (hk : k ∈ (b.mark ri ci val).1.allowedAt ri ci)
    (h1k : 1 ≤ k) (hks : k ≤ b.size) : k = val := by
  unfold Board.mark at hk
  cases hset : b.set ri ci val with
  | mk b1 flag =>
    rw [hset] at hk
    cases flag with
    | false =>
      have := set_flag_true b ri ci val hne
      rw [hset] at this
      exact absurd this (by simp)
    | true =>
      have hs1 : b1.size = b.size := by
        have := set_size_eq b ri ci val
        rw [hset] at this
        exact this
      have hk2 : k ∈ ((List.range b1.size).foldl (Board.markSelfStep ri ci val)
          ((List.range b1.size).foldl (Board.markNeighborStep ri ci val) (b1, false)).1
          ).allowedAt ri ci := hk
      obtain ⟨-, hbound⟩ := selfFold_bound ri ci val (List.range b1.size) _ k hk2
      by_contra hkv
      have hjmem : k - 1 ∈ List.range b1.size := by
        rw [List.mem_range]
        omega
      have hkeq : k - 1 + 1 = k := by omega
      have := hbound (k - 1) hjmem (by omega)
      exact this (by omega)

/-- Invariant of claim C5 in its provable form: every candidate set lies in
1..Size, and a non-empty cell's candidate set lies inside the singleton of
its grid value (it can be empty when the clues are contradictory). -/
def BoardInv (b : Board) : Prop :=
  (∀ r c, b.allowedAt r c ⊆ Finset.Icc 1 b.size) ∧
  (∀ r c, b.get r c ≠ 0 → b.allowedAt r c ⊆ {b.get r c})

theorem get_congr {b2 b : Board} (h : b2.grid = b.grid) (r c : ℕ) :
    b2.get r c = b.get r c := by
  unfold Board.get get2
  rw [h]

theorem inv_of_shrinks_gridEq {b2 b : Board} (hinv : BoardInv b)
    (hsz : b2.size = b.size) (hg : ∀ r c, b2.get r c = b.get r c)
    (hal : ∀ r c, b2.allowedAt r c ⊆ b.allowedAt r c) : BoardInv b2 := by
  constructor
  · intro r c
    rw [hsz]
    exact (hal r c).trans (hinv.1 r c)
  · intro r c hzero
    rw [hg r c] at hzero ⊢
    exact (hal r c).trans (hinv.2 r c hzero)

theorem mark_inv (b : Board) (ri ci val : ℕ) (hinv : BoardInv b) :
    BoardInv (b.mark ri ci val).1 := by
  by_cases hv : b.get ri ci = val
  · rw [mark_noop b ri ci val hv]
    exact hinv
  · have hgrid := (mark_grid b ri ci val hv).1
    have hsz := mark_size b ri ci val
    have hsh := mark_shrinks b ri ci val
    constructor
    · intro r c
      rw [hsz]
      exact (hsh.1 r c).trans (hinv.1 r c)
    · intro r c hzero
      by_cases hrc : r = ri ∧ c = ci
      · obtain ⟨rfl, rfl⟩ := hrc
        have hget : (b.mark r c val).1.get r c = val ∨ (b.mark r c val).1.get r c = 0 := by
          show get2 (b.mark r c val).1.grid r c 0 = val ∨ get2 (b.mark r c val).1.grid r c 0 = 0
          rw [hgrid, get2_set2]
          by_cases hin : r = r ∧ c = c ∧ r < b.grid.length ∧ c < (b.grid.getD r []).length
          · rw [if_pos hin]
            exact Or.inl rfl
          · rw [if_neg hin]
            refine Or.inr (get_out b r c ?_)
            intro h2
            exact hin ⟨rfl, rfl, h2.1, h2.2⟩
        rcases hget with hval | h0
        · rw [hval]
          intro k hk
          rw [Finset.mem_singleton]
          have hicc := (hinv.1 r c) ((hsh.1 r c) hk)
          rw [Finset.mem_Icc] at hicc
          exact mark_self_allowed b r c val k hv hk hicc.1 hicc.2
        · exact absurd h0 hzero
      · have hget : (b.mark ri ci val).1.get r c = b.get r c := by
          show get2 (b.mark ri ci val).1.grid r c 0 = b.get r c
          rw [hgrid, get2_set2, if_neg (fun h => hrc ⟨h.1, h.2.1⟩)]
          rfl
        rw [hget] at hzero ⊢
        exact (hsh.1 r c).trans (hinv.2 r c hzero)

theorem mmCellStep_inv (ri ci : ℕ) (s : Board × Bool × Bool) (hinv : BoardInv s.1) :
    BoardInv (Board.mmCellStep ri ci s).1 := by
  unfold Board.mmCellStep
  by_cases hc : (s.1.allowedAt ri ci).card ≠ 1 ∨ s.1.get ri ci ≠ EMPTY
  · rw [if_pos hc]
    exact hinv
  · rw [if_neg hc]
    cases htl : (s.1.allowedAt ri ci).sort (· ≤ ·) with
    | nil => exact hinv
    | cons k rest =>
      cases rest with
      | nil => exact mark_inv s.1 ri ci k hinv
      | cons k2 rest2 => exact hinv

theorem mmPass_inv (b : Board) (hinv : BoardInv b) : BoardInv (b.mmPass).1 := by
  unfold Board.mmPass
  exact foldl_inv (fun s : Board × Bool × Bool => BoardInv s.1) _ _ (b, false, false) hinv
    (fun s ri _ hs => foldl_inv _ _ _ s hs (fun s2 ci _ hs2 => mmCellStep_inv ri ci s2 hs2))

theorem markMandatory_inv (b : Board) (hinv : BoardInv b) : BoardInv (b.markMandatory).1 := by
  suffices h : ∀ (n : ℕ) (b : Board), totalAllowed b ≤ n → BoardInv b → BoardInv (b.markMandatory).1 from
    h (totalAllowed b) b (Nat.le_refl _) hinv
  intro n
  induction n with
  | zero =>
    intro b hb hi
    rw [Board.markMandatory]
    have hm := mmPass_measure b
    split
    · rename_i h
      have := hm.2 h
      omega
    · exact mmPass_inv b hi
  | succ n ih =>
    intro b hb hi
    rw [Board.markMandatory]
    split
    · rename_i h
      have hlt := (mmPass_measure b).2 h
      exact ih (b.mmPass).1 (by omega) (mmPass_inv b hi)
    · exact mmPass_inv b hi

theorem disallowOthers_grid (b : Board) (ri ci : ℕ) (tk : List ℕ) :
    (b.DisallowOthers ri ci tk).1.grid = b.grid ∧ (b.DisallowOthers ri ci tk).1.size = b.size := by
  unfold Board.DisallowOthers
  split
  · exact ⟨rfl, rfl⟩
  · exact ⟨rfl, rfl⟩

theorem tfgCellStep_grid (nums : List ℕ) (ri ci : ℕ) (u : Board × Bool) :
    (Board.tfgCellStep nums ri ci u).1.grid = u.1.grid ∧
      (Board.tfgCellStep nums ri ci u).1.size = u.1.size := by
  unfold Board.tfgCellStep
  split
  · exact disallowOthers_grid u.1 ri ci nums
  · exact ⟨rfl, rfl⟩

theorem tfgRowPhase_grid (sz : ℕ) (nums : List ℕ) (s : Board × Bool) :
    (tfgRowPhase sz nums s).1.grid = s.1.grid ∧ (tfgRowPhase sz nums s).1.size = s.1.size := by
  unfold tfgRowPhase
  refine foldl_inv (fun t : Board × Bool => t.1.grid = s.1.grid ∧ t.1.size = s.1.size)
    _ _ s ⟨rfl, rfl⟩ ?_
  intro t ri _ ht
  dsimp only
  split
  · refine foldl_inv (fun u : Board × Bool => u.1.grid = s.1.grid ∧ u.1.size = s.1.size)
      _ _ t ht ?_
    intro u ci _ hu
    have := tfgCellStep_grid nums ri ci u
    exact ⟨this.1.trans hu.1, this.2.trans hu.2⟩
  · exact ht

theorem tfgColPhase_grid (sz : ℕ) (nums : List ℕ) (s : Board × Bool) :
    (tfgColPhase sz nums s).1.grid = s.1.grid ∧ (tfgColPhase sz nums s).1.size = s.1.size := by
  unfold tfgColPhase
  refine foldl_inv (fun t : Board × Bool => t.1.grid = s.1.grid ∧ t.1.size = s.1.size)
    _ _ s ⟨rfl, rfl⟩ ?_
  intro t ci _ ht
  dsimp only
  split
  · refine foldl_inv (fun u : Board × Bool => u.1.grid = s.1.grid ∧ u.1.size = s.1.size)
      _ _ t ht ?_
    intro u ri _ hu
    have := tfgCellStep_grid nums ri ci u
    exact ⟨this.1.trans hu.1, this.2.trans hu.2⟩
  · exact ht

theorem trimFoundGroups_grid (b : Board) (n : ℕ) :
    (b.trimFoundGroups n).1.grid = b.grid ∧ (b.trimFoundGroups n).1.size = b.size := by
  unfold Board.trimFoundGroups
  refine foldl_inv (fun s : Board × Bool => s.1.grid = b.grid ∧ s.1.size = b.size)
    _ _ (b, false) ⟨rfl, rfl⟩ ?_
  intro s nums _ hs
  have h1 := tfgRowPhase_grid b.size nums s
  have h2 := tfgColPhase_grid b.size nums (tfgRowPhase b.size nums s)
  exact ⟨h2.1.trans (h1.1.trans hs.1), h2.2.trans (h1.2.trans hs.2)⟩

theorem trimNakedSets_grid (b : Board) (n : ℕ) :
    (b.trimNakedSets n).1.grid = b.grid ∧ (b.trimNakedSets n).1.size = b.size := by
  rcases trimNakedSets_cases b n with h | ⟨ri, ci, S, -, h⟩
  · rw [h]
    exact ⟨rfl, rfl⟩
  · rw [h]
    exact ⟨rfl, rfl⟩

theorem applyOp_inv (b : Board) (op : SolveOp) (hinv : BoardInv b) :
    BoardInv (applyOp b op) := by
  cases op with
  | mark ri ci val => exact mark_inv b ri ci val hinv
  | markMandatory => exact markMandatory_inv b hinv
  | trimAllowedFromPerms =>
    exact inv_of_shrinks_gridEq hinv rfl (fun r c => rfl) (trimAllowedFromPerms_shrinks b).1
  | trimPermsFromAllowed =>
    exact inv_of_shrinks_gridEq hinv rfl (fun r c => rfl) (trimPermsFromAllowed_shrinks b).1
  | trimNakedSets n =>
    exact inv_of_shrinks_gridEq hinv (trimNakedSets_grid b n).2
      (fun r c => get_congr (trimNakedSets_grid b n).1 r c) (trimNakedSets_shrinks b n).1
  | trimFoundGroups n =>
    exact inv_of_shrinks_gridEq hinv (trimFoundGroups_grid b n).2
      (fun r c => get_congr (trimFoundGroups_grid b n).1 r c) (trimFoundGroups_shrinks b n).1

theorem get2_replicate {α : Type} (n m : ℕ) (x : α) (r c : ℕ) (d : α) :
    get2 (List.replicate n (List.replicate m x)) r c d =
      if r < n ∧ c < m then x else d := by
  unfold get2
  by_cases hr : r < n
  · have : (List.replicate n (List.replicate m x)).getD r [] = List.replicate m x := by
      rw [List.getD_eq_getElem _ _ (by simpa using hr), List.getElem_replicate]
    rw [this]
    by_cases hc : c < m
    · rw [List.getD_eq_getElem _ _ (by simpa using hc), List.getElem_replicate,
        if_pos ⟨hr, hc⟩]
    · rw [List.getD_eq_default _ _ (by simpa using Nat.le_of_not_lt hc),
        if_neg (fun h => hc h.2)]
  · have h1 : (List.replicate n (List.replicate m x)).getD r [] = [] :=
      List.getD_eq_default _ _ (by simpa using Nat.le_of_not_lt hr)
    rw [h1, if_neg (fun h => hr h.1)]
    rfl

theorem addObserver_inv (b : Board) (o : Observer) (hinv : BoardInv b) :
    BoardInv (b.addObserver o) := by
  unfold Board.addObserver
  split
  · exact hinv
  · split
    · exact hinv
    · exact ⟨hinv.1, hinv.2⟩

theorem parseCellStep_inv (size ri : ℕ) (bb : Board) (cc : ℕ × ℕ)
    (hinv : BoardInv bb) : BoardInv (parseCellStep size ri bb cc) := by
  unfold parseCellStep
  split
  · split
    · exact hinv
    · exact addObserver_inv _ _ hinv
  · split
    · exact addObserver_inv _ _ hinv
    · exact mark_inv _ _ _ _ hinv

theorem boardInit_inv (size : ℕ) : BoardInv (boardInit size) := by
  constructor
  · intro r c
    show get2 (NewAllowed size) r c ∅ ⊆ Finset.Icc 1 size
    unfold NewAllowed
    rw [get2_replicate]
    split
    · exact Finset.Subset.refl _
    · exact Finset.empty_subset _
  · intro r c hzero
    exfalso
    apply hzero
    show get2 (List.replicate size (List.replicate size 0)) r c 0 = 0
    rw [get2_replicate]
    split
    · rfl
    · rfl

theorem boardFromInputs_inv (inputs : List (List ℕ)) :
    BoardInv (BoardFromInputs inputs) := by
  unfold BoardFromInputs
  have hb1 : BoardInv (inputs.enum.foldl (parseRowStep (inputs.length - 2))
      (boardInit (inputs.length - 2))) := by
    refine foldl_inv BoardInv _ _ _ (boardInit_inv _) ?_
    intro bb rc _ hbb
    unfold parseRowStep
    exact foldl_inv BoardInv _ _ bb hbb
      (fun b2 cc _ h2 => parseCellStep_inv _ _ b2 cc h2)
  exact inv_of_shrinks_gridEq ⟨hb1.1, hb1.2⟩ rfl (fun r c => rfl)
    (trimAllowedFromPerms_shrinks _).1

theorem applyOps_inv (b : Board) (ops : List SolveOp) (hinv : BoardInv b) :
    BoardInv (applyOps b ops) := by
  unfold applyOps
  exact foldl_inv BoardInv applyOp ops b hinv (fun bb op _ hb => applyOp_inv bb op hb)

/-- C5 (amended): in every board state reachable from the constructor by
solving operations, every non-empty grid cell's candidate set is contained
in the singleton of its grid value; it equals that singleton except when
the deductions have emptied it, which contradictory clue sets can force
even inside the constructor. -/
theorem C5_decided_cell_candidates (inputs : List (List ℕ)) (ops : List SolveOp) (r c : ℕ)
    (h : (applyOps (BoardFromInputs inputs) ops).get r c ≠ 0) :
    (applyOps (BoardFromInputs inputs) ops).allowedAt r c ⊆
      {(applyOps (BoardFromInputs inputs) ops).get r c} :=
  (applyOps_inv (BoardFromInputs inputs) ops (boardFromInputs_inv inputs)).2 r c h

/-- C5 is refuted as stated: the constructor itself (reached here with the
empty operation sequence) turns a 1-by-1 puzzle with the contradictory
column clue 2 and the cell pre-filled with 1 into a board whose only cell
is non-empty yet has an empty candidate set, not the singleton of its
value. -/
theorem C5_counterexample :
    (applyOps (BoardFromInputs [[0, 2, 0], [0, 1, 0], [0, 0, 0]]) []).get 0 0 = 1 ∧
    (applyOps (BoardFromInputs [[0, 2, 0], [0, 1, 0], [0, 0, 0]]) []).allowedAt 0 0 ≠ {1} := by
  decide

theorem C5_decided_cell_candidates_witness :
    (applyOps (BoardFromInputs [[0, 0, 0], [0, 1, 0], [0, 0, 0]]) []).get 0 0 ≠ 0 ∧
    (applyOps (BoardFromInputs [[0, 0, 0], [0, 1, 0], [0, 0, 0]]) []).allowedAt 0 0 ⊆
      {(applyOps (BoardFromInputs [[0, 0, 0], [0, 1, 0], [0, 0, 0]]) []).get 0 0} :=
  ⟨by decide, C5_decided_cell_candidates [[0, 0, 0], [0, 1, 0], [0, 0, 0]] [] 0 0 (by decide)⟩

/-! ## Claim C4: termination of AutoSolve

The loop measure is the number of empty grid cells plus the total size of
all candidate sets plus the total length of all permutation lists; every
round that reports a change strictly decreases it. The grid part needs the
well-formedness facts below, which the constructor establishes. -/

/-- Shape facts: grid and candidate matrix are Size-by-Size. -/
def Dims (b : Board) : Prop :=
  b.grid.length = b.size ∧ (∀ r, r < b.size → (b.grid.getD r []).length = b.size) ∧
  b.allowed.length = b.size ∧ (∀ r, r < b.size → (b.allowed.getD r []).length = b.size)

/-- Well-formed boards: correct shapes and the C5 invariant (in particular
no candidate set contains 0). -/
def WF (b : Board) : Prop := Dims b ∧ BoardInv b

theorem dims_setAllowedAt (b : Board) (ri ci : ℕ) (s : Finset ℕ) (hd : Dims b) :
    Dims (b.setAllowedAt ri ci s) := by
  refine ⟨hd.1, hd.2.1, ?_, ?_⟩
  · show (set2 b.allowed ri ci s).length = b.size
    rw [set2_length]
    exact hd.2.2.1
  · intro r hr
    show ((set2 b.allowed ri ci s).getD r []).length = b.size
    rw [set2_row_length]
    exact hd.2.2.2 r hr

theorem set_grid_shape (b : Board) (ri ci val : ℕ) :
    (b.set ri ci val).1.grid.length = b.grid.length ∧
      ∀ r, ((b.set ri ci val).1.grid.getD r []).length = (b.grid.getD r []).length := by
  by_cases h : b.get ri ci = val
  · have : b.set ri ci val = (b, false) := by
      unfold Board.set
      rw [if_pos h]
    rw [this]
    exact ⟨rfl, fun r => rfl⟩
  · rw [set_grid_eq b ri ci val h]
    exact ⟨set2_length _ _ _ _, fun r => set2_row_length _ _ _ _ r⟩

theorem dims_set (b : Board) (ri ci val : ℕ) (hd : Dims b) : Dims (b.set ri ci val).1 := by
  have hsz := set_size_eq b ri ci val
  have hal := set_allowed_eq b ri ci val
  have hg := set_grid_shape b ri ci val
  refine ⟨?_, ?_, ?_, ?_⟩
  · rw [hg.1, hsz]
    exact hd.1
  · intro r hr
    rw [hsz] at hr
    rw [hg.2 r, hsz]
    exact hd.2.1 r hr
  · rw [hal, hsz]
    exact hd.2.2.1
  · intro r hr
    rw [hsz] at hr
    rw [hal, hsz]
    exact hd.2.2.2 r hr

theorem dims_eraseAllowed (b : Board) (ri ci v : ℕ) (hd : Dims b) :
    Dims (b.eraseAllowed ri ci v) := dims_setAllowedAt b ri ci _ hd

theorem dims_mark (b : Board) (ri ci val : ℕ) (hd : Dims b) : Dims (b.mark ri ci val).1 := by
  unfold Board.mark
  cases hset : b.set ri ci val with
  | mk b1 flag =>
    cases flag with
    | false => exact hd
    | true =>
      have hd1 : Dims b1 := by
        have := dims_set b ri ci val hd
        rw [hset] at this
        exact this
      show Dims ((List.range b1.size).foldl (Board.markSelfStep ri ci val)
        ((List.range b1.size).foldl (Board.markNeighborStep ri ci val) (b1, false)).1)
      have hnb := foldl_inv (fun s : Board × Bool => Dims s.1)
        (Board.markNeighborStep ri ci val) (List.range b1.size) (b1, false) hd1
        (fun s a _ hs => by
          unfold Board.markNeighborStep
          by_cases h1 : a ≠ ri ∧ s.1.isAllowed a ci val
          · rw [if_pos h1]
            dsimp only
            split
            · exact dims_eraseAllowed _ ri a val (dims_eraseAllowed _ a ci val hs)
            · exact dims_eraseAllowed _ a ci val hs
          · rw [if_neg h1]
            dsimp only
            split
            · exact dims_eraseAllowed _ ri a val hs
            · exact hs)
      exact foldl_inv (fun bb : Board => Dims bb)
        (Board.markSelfStep ri ci val) (List.range b1.size) _ hnb
        (fun bb j _ hbb => by
          unfold Board.markSelfStep
          split
          · exact dims_eraseAllowed _ ri ci (j + 1) hbb
          · exact hbb)

theorem mark_wf (b : Board) (ri ci val : ℕ) (h : WF b) : WF (b.mark ri ci val).1 :=
  ⟨dims_mark b ri ci val h.1, mark_inv b ri ci val h.2⟩

theorem mapIdx2_length {α : Type} (f : ℕ → ℕ → α → α) (g : List (List α)) :
    (mapIdx2 f g).length = g.length := mapIdxFrom_length _ 0 g

theorem mapIdx2_row_length {α : Type} (f : ℕ → ℕ → α → α) (g : List (List α)) (r : ℕ) :
    ((mapIdx2 f g).getD r []).length = (g.getD r []).length := by
  unfold mapIdx2
  rw [mapIdxFrom_getD _ [] 0 g r]
  by_cases hr : r < g.length
  · rw [if_pos hr]
    exact mapIdxFrom_length _ 0 _
  · rw [if_neg hr, List.getD_eq_default _ _ (Nat.le_of_not_lt hr)]

theorem dims_trimAllowedFromPerms (b : Board) (hd : Dims b) :
    Dims (b.trimAllowedFromPerms).1 := by
  refine ⟨hd.1, hd.2.1, ?_, ?_⟩
  · show (mapIdx2 _ b.allowed).length = b.size
    rw [mapIdx2_length]
    exact hd.2.2.1
  · intro r hr
    show ((mapIdx2 _ b.allowed).getD r []).length = b.size
    rw [mapIdx2_row_length]
    exact hd.2.2.2 r hr

theorem dims_trimPermsFromAllowed (b : Board) (hd : Dims b) :
    Dims (b.trimPermsFromAllowed).1 := hd

theorem dims_trimNakedSets (b : Board) (n : ℕ) (hd : Dims b) :
    Dims (b.trimNakedSets n).1 := by
  rcases trimNakedSets_cases b n with h | ⟨ri, ci, S, -, h⟩
  · rw [h]
    exact hd
  · rw [h]
    exact dims_setAllowedAt b ri ci _ hd

theorem dims_disallowOthers (b : Board) (ri ci : ℕ) (tk : List ℕ) (hd : Dims b) :
    Dims (b.DisallowOthers ri ci tk).1 := by
  unfold Board.DisallowOthers
  split
  · exact hd
  · exact dims_setAllowedAt b ri ci _ hd

theorem dims_trimFoundGroups (b : Board) (n : ℕ) (hd : Dims b) :
    Dims (b.trimFoundGroups n).1 := by
  unfold Board.trimFoundGroups
  refine foldl_inv (fun s : Board × Bool => Dims s.1) _ _ (b, false) hd ?_
  intro s nums _ hs
  have hrow : Dims (tfgRowPhase b.size nums s).1 := by
    unfold tfgRowPhase
    refine foldl_inv (fun t : Board × Bool => Dims t.1) _ _ s hs ?_
    intro t ri _ ht
    dsimp only
    split
    · refine foldl_inv (fun u : Board × Bool => Dims u.1) _ _ t ht ?_
      intro u ci _ hu
      unfold Board.tfgCellStep
      split
      · exact dims_disallowOthers u.1 ri ci nums hu
      · exact hu
    · exact ht
  unfold tfgColPhase
  refine foldl_inv (fun t : Board × Bool => Dims t.1) _ _ _ hrow ?_
  intro t ci _ ht
  dsimp only
  split
  · refine foldl_inv (fun u : Board × Bool => Dims u.1) _ _ t ht ?_
    intro u ri _ hu
    unfold Board.tfgCellStep
    split
    · exact dims_disallowOthers u.1 ri ci nums hu
    · exact hu
  · exact ht

theorem gridZero_congr {b2 b : Board} (h : b2.grid = b.grid) :
    gridZeroCount b2 = gridZeroCount b := by
  unfold gridZeroCount
  rw [h]

theorem count_zero_set_le (row : List ℕ) (ci v : ℕ) (hv : v ≠ 0) :
    (row.set ci v).count 0 ≤ row.count 0 := by
  by_cases hci : ci < row.length
  · rw [List.count_set v 0 row ci hci]
    have : (v == 0) = false := by
      simpa using hv
    rw [this]
    simp
  · rw [List.set_eq_of_length_le (Nat.le_of_not_lt hci)]

theorem count_zero_set_lt (row : List ℕ) (ci v : ℕ) (hv : v ≠ 0)
    (hci : ci < row.length) (h0 : row.getD ci 0 = 0) :
    (row.set ci v).count 0 + 1 = row.count 0 := by
  rw [List.count_set v 0 row ci hci]
  have hcell : row[ci] = 0 := by
    rw [← List.getD_eq_getElem row 0 hci]
    exact h0
  have hmem : (0 : ℕ) ∈ row := by
    rw [← hcell]
    exact List.getElem_mem hci
  have hpos : 0 < row.count 0 := List.count_pos_iff_mem.mpr hmem
  have hv' : (v == 0) = false := by simpa using hv
  rw [hcell, hv']
  simp
  omega

theorem gridZero_set2_le (g : List (List ℕ)) (ri ci v : ℕ) (hv : v ≠ 0) :
    ((set2 g ri ci v).map fun row => row.count 0).sum ≤
      ((g.map fun row => row.count 0).sum) := by
  by_cases hri : ri < g.length
  · have h := sumMap_set (fun row => row.count 0) g ri ((g.getD ri []).set ci v) [] hri
    beta_reduce at h
    have hle := count_zero_set_le (g.getD ri []) ci v hv
    unfold set2
    omega
  · unfold set2
    rw [List.set_eq_of_length_le (Nat.le_of_not_lt hri)]

theorem gridZero_set2_lt (g : List (List ℕ)) (ri ci v : ℕ) (hv : v ≠ 0)
    (hri : ri < g.length) (hci : ci < (g.getD ri []).length)
    (h0 : get2 g ri ci 0 = 0) :
    ((set2 g ri ci v).map fun row => row.count 0).sum <
      ((g.map fun row => row.count 0).sum) := by
  have h := sumMap_set (fun row => row.count 0) g ri ((g.getD ri []).set ci v) [] hri
  beta_reduce at h
  have hlt := count_zero_set_lt (g.getD ri []) ci v hv hci h0
  unfold set2
  omega

theorem mark_gridZero_le (b : Board) (ri ci val : ℕ) (hval : val ≠ 0) :
    gridZeroCount (b.mark ri ci val).1 ≤ gridZeroCount b := by
  by_cases h : b.get ri ci = val
  · rw [mark_noop b ri ci val h]
  · have hg := (mark_grid b ri ci val h).1
    show (((b.mark ri ci val).1.grid.map fun row => row.count 0).sum) ≤ _
    rw [hg]
    exact gridZero_set2_le b.grid ri ci val hval

theorem mark_gridZero_lt (b : Board) (ri ci val : ℕ) (hval : val ≠ 0)
    (h0 : b.get ri ci = 0) (hri : ri < b.grid.length)
    (hci : ci < (b.grid.getD ri []).length) :
    gridZeroCount (b.mark ri ci val).1 < gridZeroCount b := by
  have hne : b.get ri ci ≠ val := by
    rw [h0]
    exact fun h => hval h.symm
  have hg := (mark_grid b ri ci val hne).1
  show (((b.mark ri ci val).1.grid.map fun row => row.count 0).sum) < _
  rw [hg]
  exact gridZero_set2_lt b.grid ri ci val hval hri hci h0

theorem mmCellStep_full (bsz T : ℕ) (ri ci : ℕ) (hri : ri < bsz) (hci : ci < bsz)
    (s : Board × Bool × Bool)
    (hs : WF s.1 ∧ s.1.size = bsz ∧ gridZeroCount s.1 ≤ T ∧
      (s.2.1 = true → gridZeroCount s.1 < T)) :
    WF (Board.mmCellStep ri ci s).1 ∧ (Board.mmCellStep ri ci s).1.size = bsz ∧
      gridZeroCount (Board.mmCellStep ri ci s).1 ≤ T ∧
      ((Board.mmCellStep ri ci s).2.1 = true →
        gridZeroCount (Board.mmCellStep ri ci s).1 < T) := by
  obtain ⟨hwf, hsz, hle, hlt⟩ := hs
  unfold Board.mmCellStep
  by_cases hc : (s.1.allowedAt ri ci).card ≠ 1 ∨ s.1.get ri ci ≠ EMPTY
  · rw [if_pos hc]
    exact ⟨hwf, hsz, hle, hlt⟩
  · rw [if_neg hc]
    push_neg at hc
    cases htl : (s.1.allowedAt ri ci).sort (· ≤ ·) with
    | nil => exact ⟨hwf, hsz, hle, hlt⟩
    | cons k rest =>
      cases rest with
      | nil =>
        have hkmem : k ∈ s.1.allowedAt ri ci := by
          rw [← Finset.mem_sort (α := ℕ) (· ≤ ·), htl]
          exact List.mem_singleton_self k
        have hk1 : 1 ≤ k := by
          have := hwf.2.1 ri ci hkmem
          rw [Finset.mem_Icc] at this
          exact this.1
        have hk0 : k ≠ 0 := by omega
        have h0 : s.1.get ri ci = 0 := hc.2
        have hgr : ri < s.1.grid.length := by
          rw [hwf.1.1, hsz]
          exact hri
        have hgc : ci < (s.1.grid.getD ri []).length := by
          rw [hwf.1.2.1 ri (by rw [hsz]; exact hri), hsz]
          exact hci
        have hglt := mark_gridZero_lt s.1 ri ci k hk0 h0 hgr hgc
        have hwf2 := mark_wf s.1 ri ci k hwf
        have hsz2 := mark_size s.1 ri ci k
        dsimp only
        exact ⟨hwf2, by rw [hsz2, hsz], by omega, fun _ => by omega⟩
      | cons k2 rest2 => exact ⟨hwf, hsz, hle, hlt⟩

theorem mmPass_full (b : Board) (hwf : WF b) :
    WF (b.mmPass).1 ∧ (b.mmPass).1.size = b.size ∧
      gridZeroCount (b.mmPass).1 ≤ gridZeroCount b ∧
      ((b.mmPass).2.1 = true → gridZeroCount (b.mmPass).1 < gridZeroCount b) := by
  unfold Board.mmPass
  refine foldl_inv (fun s : Board × Bool × Bool => WF s.1 ∧ s.1.size = b.size ∧
      gridZeroCount s.1 ≤ gridZeroCount b ∧
      (s.2.1 = true → gridZeroCount s.1 < gridZeroCount b))
    _ _ (b, false, false) ⟨hwf, rfl, Nat.le_refl _, fun h => by simp at h⟩ ?_
  intro s ri hri hs
  have hriN : ri < b.size := by
    rw [← hwf.1.2.2.1]
    exact List.mem_range.1 hri
  refine foldl_inv (fun s : Board × Bool × Bool => WF s.1 ∧ s.1.size = b.size ∧
      gridZeroCount s.1 ≤ gridZeroCount b ∧
      (s.2.1 = true → gridZeroCount s.1 < gridZeroCount b)) _ _ s hs ?_
  intro s2 ci hci hs2
  have hciN : ci < b.size := by
    rw [← hwf.1.2.2.2 ri hriN]
    exact List.mem_range.1 hci
  exact mmCellStep_full b.size (gridZeroCount b) ri ci hriN hciN s2 hs2

theorem markMandatory_full (b : Board) (hwf : WF b) :
    WF (b.markMandatory).1 ∧ (b.markMandatory).1.size = b.size ∧
      gridZeroCount (b.markMandatory).1 ≤ gridZeroCount b ∧
      ((b.markMandatory).2 = true → gridZeroCount (b.markMandatory).1 < gridZeroCount b) := by
  suffices h : ∀ (n : ℕ) (b : Board), totalAllowed b ≤ n → WF b →
      WF (b.markMandatory).1 ∧ (b.markMandatory).1.size = b.size ∧
      gridZeroCount (b.markMandatory).1 ≤ gridZeroCount b ∧
      ((b.markMandatory).2 = true → gridZeroCount (b.markMandatory).1 < gridZeroCount b)
    from h (totalAllowed b) b (Nat.le_refl _) hwf
  intro n
  induction n with
  | zero =>
    intro b hb hw
    rw [Board.markMandatory]
    have hm := mmPass_measure b
    split
    · rename_i h
      have := hm.2 h
      omega
    · exact mmPass_full b hw
  | succ n ih =>
    intro b hb hw
    rw [Board.markMandatory]
    split
    · rename_i h
      have hmlt := (mmPass_measure b).2 h
      have hm := mmPass_full b hw
      have hrec := ih (b.mmPass).1 (by omega) hm.1
      dsimp only
      refine ⟨hrec.1, by rw [hrec.2.1, hm.2.1], by
        have := hrec.2.2.1
        have := hm.2.2.1
        omega, ?_⟩
      intro hflag
      have := hm.2.2.2 hflag
      have := hrec.2.2.1
      omega
    · exact mmPass_full b hw

theorem markMandatory_totalAllowed_le (b : Board) :
    totalAllowed (b.markMandatory).1 ≤ totalAllowed b := by
  suffices h : ∀ (n : ℕ) (b : Board), totalAllowed b ≤ n →
      totalAllowed (b.markMandatory).1 ≤ totalAllowed b
    from h (totalAllowed b) b (Nat.le_refl _)
  intro n
  induction n with
  | zero =>
    intro b hb
    rw [Board.markMandatory]
    have hm := mmPass_measure b
    split
    · rename_i h
      have := hm.2 h
      omega
    · exact hm.1
  | succ n ih =>
    intro b hb
    rw [Board.markMandatory]
    split
    · rename_i h
      have hmlt := (mmPass_measure b).2 h
      have hrec := ih (b.mmPass).1 (by omega)
      dsimp only
      omega
    · exact (mmPass_measure b).1

/-! ## Per-operation measure facts for the AutoSolve round -/

theorem sum_optLen_le : ∀ (a b : List (Option (List ℕ))), PermsLe a b →
    (a.map optLen).sum ≤ (b.map optLen).sum := by
  intro a
  induction a with
  | nil => intro b h; simp
  | cons x xs ih =>
    intro b h
    cases b with
    | nil => exact absurd h.1 (by simp)
    | cons y ys =>
      have hx : OptSub x y := by
        have := h.2 0
        simpa using this
      have ht : PermsLe xs ys := by
        refine ⟨by simpa using h.1, fun i => ?_⟩
        have := h.2 (i + 1)
        simpa using this
      simp only [List.map_cons, List.sum_cons]
      exact Nat.add_le_add (optSub_len hx) (ih ys ht)

theorem totalPerms_le_of_shrinks {b2 b : Board} (h : Shrinks b2 b) :
    totalPerms b2 ≤ totalPerms b :=
  Nat.add_le_add (sum_optLen_le _ _ h.2.1) (sum_optLen_le _ _ h.2.2)

theorem sumMapIdxFrom_le {α : Type} (m : α → ℕ) (f : ℕ → α → α)
    (hle : ∀ k a, m (f k a) ≤ m a) :
    ∀ (k : ℕ) (l : List α), ((mapIdxFrom f k l).map m).sum ≤ (l.map m).sum := by
  intro k l
  induction l generalizing k with
  | nil => exact Nat.le_refl _
  | cons x xs ih =>
    show (m (f k x) + ((mapIdxFrom f (k + 1) xs).map m).sum) ≤ m x + (xs.map m).sum
    exact Nat.add_le_add (hle k x) (ih (k + 1))

theorem mapIdxFrom_eq_of_sum_eq {α : Type} (m : α → ℕ) (f : ℕ → α → α)
    (hle : ∀ k a, m (f k a) ≤ m a) (heqc : ∀ k a, m (f k a) = m a → f k a = a) :
    ∀ (k : ℕ) (l : List α),
      ((mapIdxFrom f k l).map m).sum = (l.map m).sum → mapIdxFrom f k l = l := by
  intro k l
  induction l generalizing k with
  | nil => intro _; rfl
  | cons x xs ih =>
    intro hsum
    have hsum' : m (f k x) + ((mapIdxFrom f (k + 1) xs).map m).sum =
        m x + (xs.map m).sum := hsum
    have h1 := hle k x
    have h2 := sumMapIdxFrom_le m f hle (k + 1) xs
    have hx : m (f k x) = m x := by omega
    have hxs : ((mapIdxFrom f (k + 1) xs).map m).sum = (xs.map m).sum := by omega
    show f k x :: mapIdxFrom f (k + 1) xs = x :: xs
    rw [heqc k x hx, ih (k + 1) hxs]

theorem sumCards_mapIdx2_le (f : ℕ → ℕ → Finset ℕ → Finset ℕ)
    (hsub : ∀ r c a, f r c a ⊆ a) (g : List (List (Finset ℕ))) :
    ((mapIdx2 f g).map sumCards).sum ≤ (g.map sumCards).sum :=
  sumMapIdxFrom_le sumCards _
    (fun r row => sumMapIdxFrom_le Finset.card _
      (fun c a => Finset.card_le_card (hsub r c a)) 0 row) 0 g

theorem mapIdx2_eq_of_sum_eq (f : ℕ → ℕ → Finset ℕ → Finset ℕ)
    (hsub : ∀ r c a, f r c a ⊆ a) (g : List (List (Finset ℕ)))
    (h : ((mapIdx2 f g).map sumCards).sum = (g.map sumCards).sum) :
    mapIdx2 f g = g := by
  refine mapIdxFrom_eq_of_sum_eq sumCards _
    (fun r row => sumMapIdxFrom_le Finset.card _
      (fun c a => Finset.card_le_card (hsub r c a)) 0 row)
    (fun r row hrow => ?_) 0 g h
  exact mapIdxFrom_eq_of_sum_eq Finset.card _
    (fun c a => Finset.card_le_card (hsub r c a))
    (fun c a hc => Finset.eq_of_subset_of_card_le (hsub r c a) (Nat.le_of_eq hc.symm))
    0 row hrow

/-- The per-cell narrowing function of TrimAllowedFromPerms. -/
def tafpF (b : Board) : ℕ → ℕ → Finset ℕ → Finset ℕ := fun ri ci a =>
  if ri < b.size ∧ ci < b.size then
    a.filter fun n => b.permSupportsRow ri ci n && b.permSupportsCol ri ci n
  else a

theorem tafpF_subset (b : Board) : ∀ r c a, tafpF b r c a ⊆ a := by
  intro r c a
  unfold tafpF
  split
  · exact Finset.filter_subset _ _
  · exact Finset.Subset.refl a

theorem tafp_allowed (b : Board) :
    (b.trimAllowedFromPerms).1.allowed = mapIdx2 (tafpF b) b.allowed := rfl

theorem tafp_flag (b : Board) :
    (b.trimAllowedFromPerms).2 = decide (mapIdx2 (tafpF b) b.allowed ≠ b.allowed) := rfl

theorem tafp_spec (b : Board) :
    (b.trimAllowedFromPerms).1.grid = b.grid ∧
    (b.trimAllowedFromPerms).1.rowPerms = b.rowPerms ∧
    (b.trimAllowedFromPerms).1.colPerms = b.colPerms ∧
    (b.trimAllowedFromPerms).1.size = b.size ∧
    totalAllowed (b.trimAllowedFromPerms).1 ≤ totalAllowed b ∧
    ((b.trimAllowedFromPerms).2 = true →
      totalAllowed (b.trimAllowedFromPerms).1 < totalAllowed b) ∧
    ((b.trimAllowedFromPerms).2 = false → (b.trimAllowedFromPerms).1 = b) := by
  have hta : totalAllowed (b.trimAllowedFromPerms).1 =
      ((mapIdx2 (tafpF b) b.allowed).map sumCards).sum := by
    unfold totalAllowed
    rw [tafp_allowed]
  have hle : totalAllowed (b.trimAllowedFromPerms).1 ≤ totalAllowed b := by
    rw [hta]
    exact sumCards_mapIdx2_le (tafpF b) (tafpF_subset b) b.allowed
  refine ⟨rfl, rfl, rfl, rfl, hle, ?_, ?_⟩
  · intro hf
    rw [tafp_flag] at hf
    have hne : mapIdx2 (tafpF b) b.allowed ≠ b.allowed := of_decide_eq_true hf
    rcases Nat.lt_or_ge (totalAllowed (b.trimAllowedFromPerms).1) (totalAllowed b) with h | h
    · exact h
    · exfalso
      apply hne
      refine mapIdx2_eq_of_sum_eq (tafpF b) (tafpF_subset b) b.allowed ?_
      rw [← hta]
      exact Nat.le_antisymm hle h
  · intro hf
    rw [tafp_flag] at hf
    have heq : mapIdx2 (tafpF b) b.allowed = b.allowed := by
      by_contra hne
      rw [decide_eq_true hne] at hf
      exact Bool.noConfusion hf
    show ({ b with allowed := mapIdx2 (tafpF b) b.allowed } : Board) = b
    rw [heq]

/-- The per-row filtering function of TrimPermsFromAllowed. -/
def tpfaRowF (b : Board) : ℕ → Option (List ℕ) → Option (List ℕ) := fun ri op =>
  match op with
  | none => none
  | some rp =>
    let np := rp.filter fun pi => b.rowPermOk ri pi
    if rp.length ≠ np.length then some np else some rp

/-- The per-column filtering function of TrimPermsFromAllowed. -/
def tpfaColF (b : Board) : ℕ → Option (List ℕ) → Option (List ℕ) := fun ci op =>
  match op with
  | none => none
  | some cp =>
    let np := cp.filter fun pi => b.colPermOk ci pi
    if cp.length ≠ np.length then some np else some cp

theorem tpfa_rowPerms (b : Board) :
    (b.trimPermsFromAllowed).1.rowPerms = mapIdxFrom (tpfaRowF b) 0 b.rowPerms := rfl

theorem tpfa_colPerms (b : Board) :
    (b.trimPermsFromAllowed).1.colPerms = mapIdxFrom (tpfaColF b) 0 b.colPerms := rfl

theorem tpfa_flag (b : Board) :
    (b.trimPermsFromAllowed).2 =
      (decide (mapIdxFrom (tpfaRowF b) 0 b.rowPerms ≠ b.rowPerms) ||
        decide (mapIdxFrom (tpfaColF b) 0 b.colPerms ≠ b.colPerms)) := rfl

theorem tpfaRowF_le (b : Board) : ∀ k op, optLen (tpfaRowF b k op) ≤ optLen op := by
  intro k op
  cases op with
  | none => exact Nat.le_refl _
  | some rp =>
    show optLen (if rp.length ≠ (rp.filter fun pi => b.rowPermOk k pi).length then
      some (rp.filter fun pi => b.rowPermOk k pi) else some rp) ≤ optLen (some rp)
    split
    · exact List.length_filter_le _ rp
    · exact Nat.le_refl _

theorem tpfaColF_le (b : Board) : ∀ k op, optLen (tpfaColF b k op) ≤ optLen op := by
  intro k op
  cases op with
  | none => exact Nat.le_refl _
  | some cp =>
    show optLen (if cp.length ≠ (cp.filter fun pi => b.colPermOk k pi).length then
      some (cp.filter fun pi => b.colPermOk k pi) else some cp) ≤ optLen (some cp)
    split
    · exact List.length_filter_le _ cp
    · exact Nat.le_refl _

theorem tpfaRowF_eq (b : Board) :
    ∀ k op, optLen (tpfaRowF b k op) = optLen op → tpfaRowF b k op = op := by
  intro k op h
  cases op with
  | none => rfl
  | some rp =>
    show (if rp.length ≠ (rp.filter fun pi => b.rowPermOk k pi).length then
      some (rp.filter fun pi => b.rowPermOk k pi) else some rp) = some rp
    by_cases hc : rp.length ≠ (rp.filter fun pi => b.rowPermOk k pi).length
    · exfalso
      apply hc
      have h' : optLen (if rp.length ≠ (rp.filter fun pi => b.rowPermOk k pi).length then
          some (rp.filter fun pi => b.rowPermOk k pi) else some rp) = optLen (some rp) := h
      rw [if_pos hc] at h'
      exact h'.symm
    · rw [if_neg hc]

theorem tpfaColF_eq (b : Board) :
    ∀ k op, optLen (tpfaColF b k op) = optLen op → tpfaColF b k op = op := by
  intro k op h
  cases op with
  | none => rfl
  | some cp =>
    show (if cp.length ≠ (cp.filter fun pi => b.colPermOk k pi).length then
      some (cp.filter fun pi => b.colPermOk k pi) else some cp) = some cp
    by_cases hc : cp.length ≠ (cp.filter fun pi => b.colPermOk k pi).length
    · exfalso
      apply hc
      have h' : optLen (if cp.length ≠ (cp.filter fun pi => b.colPermOk k pi).length then
          some (cp.filter fun pi => b.colPermOk k pi) else some cp) = optLen (some cp) := h
      rw [if_pos hc] at h'
      exact h'.symm
    · rw [if_neg hc]

theorem tpfa_spec (b : Board) :
    (b.trimPermsFromAllowed).1.grid = b.grid ∧
    (b.trimPermsFromAllowed).1.allowed = b.allowed ∧
    (b.trimPermsFromAllowed).1.size = b.size ∧
    totalPerms (b.trimPermsFromAllowed).1 ≤ totalPerms b ∧
    ((b.trimPermsFromAllowed).2 = true →
      totalPerms (b.trimPermsFromAllowed).1 < totalPerms b) ∧
    ((b.trimPermsFromAllowed).2 = false → (b.trimPermsFromAllowed).1 = b) := by
  have hrle : ((mapIdxFrom (tpfaRowF b) 0 b.rowPerms).map optLen).sum ≤
      (b.rowPerms.map optLen).sum := sumMapIdxFrom_le optLen _ (tpfaRowF_le b) 0 b.rowPerms
  have hcle : ((mapIdxFrom (tpfaColF b) 0 b.colPerms).map optLen).sum ≤
      (b.colPerms.map optLen).sum := sumMapIdxFrom_le optLen _ (tpfaColF_le b) 0 b.colPerms
  have htp : totalPerms (b.trimPermsFromAllowed).1 =
      ((mapIdxFrom (tpfaRowF b) 0 b.rowPerms).map optLen).sum +
      ((mapIdxFrom (tpfaColF b) 0 b.colPerms).map optLen).sum := by
    unfold totalPerms
    rw [tpfa_rowPerms, tpfa_colPerms]
  refine ⟨rfl, rfl, rfl, by rw [htp]; exact Nat.add_le_add hrle hcle, ?_, ?_⟩
  · intro hf
    rw [tpfa_flag] at hf
    rw [htp]
    show _ < (b.rowPerms.map optLen).sum + (b.colPerms.map optLen).sum
    rcases Bool.or_eq_true_iff.mp hf with h | h
    · have hne : mapIdxFrom (tpfaRowF b) 0 b.rowPerms ≠ b.rowPerms := of_decide_eq_true h
      have hlt : ((mapIdxFrom (tpfaRowF b) 0 b.rowPerms).map optLen).sum <
          (b.rowPerms.map optLen).sum := by
        rcases Nat.lt_or_ge _ _ with h' | h'
        · exact h'
        · exact absurd (mapIdxFrom_eq_of_sum_eq optLen _ (tpfaRowF_le b) (tpfaRowF_eq b)
            0 b.rowPerms (Nat.le_antisymm hrle h')) hne
      omega
    · have hne : mapIdxFrom (tpfaColF b) 0 b.colPerms ≠ b.colPerms := of_decide_eq_true h
      have hlt : ((mapIdxFrom (tpfaColF b) 0 b.colPerms).map optLen).sum <
          (b.colPerms.map optLen).sum := by
        rcases Nat.lt_or_ge _ _ with h' | h'
        · exact h'
        · exact absurd (mapIdxFrom_eq_of_sum_eq optLen _ (tpfaColF_le b) (tpfaColF_eq b)
            0 b.colPerms (Nat.le_antisymm hcle h')) hne
      omega
  · intro hf
    rw [tpfa_flag] at hf
    simp only [Bool.or_eq_false_iff, decide_eq_false_iff_not, not_not] at hf
    show ({ b with
      rowPerms := mapIdxFrom (tpfaRowF b) 0 b.rowPerms
      colPerms := mapIdxFrom (tpfaColF b) 0 b.colPerms } : Board) = b
    rw [hf.1, hf.2]

/-- Relation between a heuristic call's result and its input board: the
grid, permutation structures and size are untouched, the total candidate
mass does not grow, it strictly shrinks when the changed flag is up, and
the board is untouched when the flag is down. -/
def StepInv (b : Board) (s : Board × Bool) : Prop :=
  s.1.grid = b.grid ∧ s.1.rowPerms = b.rowPerms ∧ s.1.colPerms = b.colPerms ∧
  s.1.size = b.size ∧ totalAllowed s.1 ≤ totalAllowed b ∧
  (s.2 = true → totalAllowed s.1 < totalAllowed b) ∧ (s.2 = false → s.1 = b)

theorem stepInv_refl (b : Board) : StepInv b (b, false) :=
  ⟨rfl, rfl, rfl, rfl, Nat.le_refl _, fun h => by simp at h, fun _ => rfl⟩

theorem tns_spec (b : Board) (n : ℕ) : StepInv b (b.trimNakedSets n) := by
  rcases trimNakedSets_cases b n with h | ⟨ri, ci, S, hne, h⟩
  · rw [h]
    exact stepInv_refl b
  · rw [h]
    have hlt : totalAllowed (b.setAllowedAt ri ci ((b.allowedAt ri ci) \ S)) <
        totalAllowed b := by
      refine totalAllowed_setAllowedAt_lt b ri ci _ ?_
      obtain ⟨x, hx⟩ := hne
      obtain ⟨hxa, hxS⟩ := Finset.mem_inter.mp hx
      exact (Finset.ssubset_iff_of_subset Finset.sdiff_subset).mpr
        ⟨x, hxa, fun hmem => (Finset.mem_sdiff.mp hmem).2 hxS⟩
    exact ⟨rfl, rfl, rfl, rfl, Nat.le_of_lt hlt, fun _ => hlt,
      fun hff => Bool.noConfusion hff⟩

theorem tfgCellStep_stepInv (b : Board) (nums : List ℕ) (ri ci : ℕ) (u : Board × Bool)
    (hu : StepInv b u) : StepInv b (Board.tfgCellStep nums ri ci u) := by
  unfold Board.tfgCellStep
  split
  · unfold Board.DisallowOthers
    by_cases hfil : (u.1.allowedAt ri ci).filter (fun k => nums.contains k) =
        u.1.allowedAt ri ci
    · rw [if_pos hfil]
      dsimp only
      rw [Bool.or_false]
      exact hu
    · rw [if_neg hfil]
      dsimp only
      rw [Bool.or_true]
      have hlt : totalAllowed
          (u.1.setAllowedAt ri ci ((u.1.allowedAt ri ci).filter fun k => nums.contains k)) <
          totalAllowed u.1 :=
        totalAllowed_setAllowedAt_lt u.1 ri ci _
          (Finset.ssubset_iff_subset_ne.mpr ⟨Finset.filter_subset _ _, hfil⟩)
      exact ⟨hu.1, hu.2.1, hu.2.2.1, hu.2.2.2.1,
        Nat.le_of_lt (Nat.lt_of_lt_of_le hlt hu.2.2.2.2.1),
        fun _ => Nat.lt_of_lt_of_le hlt hu.2.2.2.2.1,
        fun hff => Bool.noConfusion hff⟩
  · exact hu

theorem tfg_spec (b : Board) (n : ℕ) : StepInv b (b.trimFoundGroups n) := by
  unfold Board.trimFoundGroups
  refine foldl_inv (StepInv b) _ _ (b, false) (stepInv_refl b) ?_
  intro s nums _ hs
  have hrow : StepInv b (tfgRowPhase b.size nums s) := by
    unfold tfgRowPhase
    refine foldl_inv (StepInv b) _ _ s hs ?_
    intro t ri _ ht
    dsimp only
    split
    · refine foldl_inv (StepInv b) _ _ t ht ?_
      intro u ci _ hu
      exact tfgCellStep_stepInv b nums ri ci u hu
    · exact ht
  unfold tfgColPhase
  refine foldl_inv (StepInv b) _ _ _ hrow ?_
  intro t ci _ ht
  dsimp only
  split
  · refine foldl_inv (StepInv b) _ _ t ht ?_
    intro u ri _ hu
    exact tfgCellStep_stepInv b nums ri ci u hu
  · exact ht

theorem totalAllowed_congr {b2 b : Board} (h : b2.allowed = b.allowed) :
    totalAllowed b2 = totalAllowed b := by
  unfold totalAllowed
  rw [h]

theorem totalPerms_congr {b2 b : Board} (h1 : b2.rowPerms = b.rowPerms)
    (h2 : b2.colPerms = b.colPerms) : totalPerms b2 = totalPerms b := by
  unfold totalPerms
  rw [h1, h2]

theorem tafp_wf (c : Board) (h : WF c) : WF (c.trimAllowedFromPerms).1 :=
  ⟨dims_trimAllowedFromPerms c h.1, applyOp_inv c SolveOp.trimAllowedFromPerms h.2⟩

theorem tpfa_wf (c : Board) (h : WF c) : WF (c.trimPermsFromAllowed).1 :=
  ⟨dims_trimPermsFromAllowed c h.1, applyOp_inv c SolveOp.trimPermsFromAllowed h.2⟩

theorem tns_wf (c : Board) (n : ℕ) (h : WF c) : WF (c.trimNakedSets n).1 :=
  ⟨dims_trimNakedSets c n h.1, applyOp_inv c (SolveOp.trimNakedSets n) h.2⟩

theorem tfg_wf (c : Board) (n : ℕ) (h : WF c) : WF (c.trimFoundGroups n).1 :=
  ⟨dims_trimFoundGroups c n h.1, applyOp_inv c (SolveOp.trimFoundGroups n) h.2⟩

theorem escalate_spec (f : Board → ℕ → Board × Bool) (b : Board)
    (Hf : ∀ (c : Board) (n : ℕ), WF c → WF (f c n).1 ∧ StepInv c (f c n))
    (hwf : WF b) : WF (escalate f b).1 ∧ StepInv b (escalate f b) := by
  unfold escalate
  refine foldl_inv (fun s : Board × Bool => WF s.1 ∧ StepInv b s) _ _ (b, false)
    ⟨hwf, stepInv_refl b⟩ ?_
  intro s n _ hs
  dsimp only
  by_cases hflag : s.2 = true
  · rw [if_pos hflag]
    exact hs
  · rw [if_neg hflag]
    have hsb : s.1 = b := hs.2.2.2.2.2.2.2 (Bool.eq_false_iff.mpr hflag)
    rw [hsb]
    exact Hf b n hwf

theorem mark_flags (b : Board) (ri ci val : ℕ) :
    ((b.mark ri ci val).2.1 = false → (b.mark ri ci val).1 = b) ∧
    ((b.mark ri ci val).2.2 = true → (b.mark ri ci val).2.1 = true) := by
  unfold Board.mark
  cases hset : b.set ri ci val with
  | mk b1 flag =>
    cases flag with
    | false => exact ⟨fun _ => rfl, fun h => Bool.noConfusion h⟩
    | true => exact ⟨fun h => Bool.noConfusion h, fun _ => rfl⟩

theorem mmCellStep_flags (b : Board) (ri ci : ℕ) (s : Board × Bool × Bool)
    (hs : (s.2.2 = true → s.2.1 = true) ∧ (s.2.1 = false → s.1 = b)) :
    ((Board.mmCellStep ri ci s).2.2 = true → (Board.mmCellStep ri ci s).2.1 = true) ∧
    ((Board.mmCellStep ri ci s).2.1 = false → (Board.mmCellStep ri ci s).1 = b) := by
  unfold Board.mmCellStep
  by_cases hc : (s.1.allowedAt ri ci).card ≠ 1 ∨ s.1.get ri ci ≠ EMPTY
  · rw [if_pos hc]
    exact hs
  · rw [if_neg hc]
    cases htl : (s.1.allowedAt ri ci).sort (· ≤ ·) with
    | nil => exact hs
    | cons k rest =>
      cases rest with
      | nil =>
        dsimp only
        constructor
        · intro hredo
          rcases Bool.or_eq_true_iff.mp hredo with h | h
          · rw [hs.1 h, Bool.true_or]
          · rw [(mark_flags s.1 ri ci k).2 h, Bool.or_true]
        · intro hch
          obtain ⟨h1, h2⟩ := Bool.or_eq_false_iff.mp hch
          rw [(mark_flags s.1 ri ci k).1 h2]
          exact hs.2 h1
      | cons k2 rest2 => exact hs

theorem mmPass_flags (b : Board) :
    ((b.mmPass).2.2 = true → (b.mmPass).2.1 = true) ∧
    ((b.mmPass).2.1 = false → (b.mmPass).1 = b) := by
  unfold Board.mmPass
  refine foldl_inv (fun s : Board × Bool × Bool =>
      (s.2.2 = true → s.2.1 = true) ∧ (s.2.1 = false → s.1 = b)) _ _ (b, false, false)
    ⟨fun h => Bool.noConfusion h, fun _ => rfl⟩ ?_
  intro s ri _ hs
  refine foldl_inv (fun s : Board × Bool × Bool =>
      (s.2.2 = true → s.2.1 = true) ∧ (s.2.1 = false → s.1 = b)) _ _ s hs ?_
  intro s2 ci _ hs2
  exact mmCellStep_flags b ri ci s2 hs2

theorem markMandatory_flag_false (b : Board) :
    (b.markMandatory).2 = false → (b.markMandatory).1 = b := by
  intro h
  rw [Board.markMandatory] at h ⊢
  by_cases hredo : (b.mmPass).2.2 = true
  · rw [dif_pos hredo] at h
    dsimp only at h
    exact absurd ((mmPass_flags b).1 hredo) (by rw [h]; exact Bool.noConfusion)
  · rw [dif_neg hredo] at h ⊢
    dsimp only at h ⊢
    exact (mmPass_flags b).2 h

theorem roundBody_eq (b : Board) : b.roundBody =
    if (b.markMandatory).2 || ((b.markMandatory).1.trimAllowedFromPerms).2 ||
        (((b.markMandatory).1.trimAllowedFromPerms).1.trimPermsFromAllowed).2 then
      ((((b.markMandatory).1.trimAllowedFromPerms).1.trimPermsFromAllowed).1, true)
    else
      if (escalate Board.trimNakedSets
          (((b.markMandatory).1.trimAllowedFromPerms).1.trimPermsFromAllowed).1).2 then
        ((escalate Board.trimNakedSets
          (((b.markMandatory).1.trimAllowedFromPerms).1.trimPermsFromAllowed).1).1, true)
      else escalate Board.trimFoundGroups
        (escalate Board.trimNakedSets
          (((b.markMandatory).1.trimAllowedFromPerms).1.trimPermsFromAllowed).1).1 := rfl

theorem roundBody_spec (b : Board) (hwf : WF b) :
    WF (b.roundBody).1 ∧
    ((b.roundBody).2 = true → solveMeasure (b.roundBody).1 < solveMeasure b) ∧
    ((b.roundBody).2 = false → (b.roundBody).1 = b) := by
  rw [roundBody_eq]
  have hm := markMandatory_full b hwf
  have hmta := markMandatory_totalAllowed_le b
  have hmtp : totalPerms (b.markMandatory).1 ≤ totalPerms b :=
    totalPerms_le_of_shrinks (markMandatory_shrinks b)
  obtain ⟨g1, rp1, cp1, sz1, ta1le, ta1lt, eq1⟩ := tafp_spec (b.markMandatory).1
  have ht1wf : WF ((b.markMandatory).1.trimAllowedFromPerms).1 := tafp_wf _ hm.1
  obtain ⟨g2, al2, sz2, tp2le, tp2lt, eq2⟩ :=
    tpfa_spec ((b.markMandatory).1.trimAllowedFromPerms).1
  have ht2wf : WF (((b.markMandatory).1.trimAllowedFromPerms).1.trimPermsFromAllowed).1 :=
    tpfa_wf _ ht1wf
  have hgz2 : gridZeroCount
      (((b.markMandatory).1.trimAllowedFromPerms).1.trimPermsFromAllowed).1 =
      gridZeroCount (b.markMandatory).1 :=
    (gridZero_congr g2).trans (gridZero_congr g1)
  have hta2 : totalAllowed
      (((b.markMandatory).1.trimAllowedFromPerms).1.trimPermsFromAllowed).1 =
      totalAllowed ((b.markMandatory).1.trimAllowedFromPerms).1 := totalAllowed_congr al2
  have htp1 : totalPerms ((b.markMandatory).1.trimAllowedFromPerms).1 =
      totalPerms (b.markMandatory).1 := totalPerms_congr rp1 cp1
  by_cases hcond : ((b.markMandatory).2 || ((b.markMandatory).1.trimAllowedFromPerms).2 ||
      (((b.markMandatory).1.trimAllowedFromPerms).1.trimPermsFromAllowed).2) = true
  · rw [if_pos hcond]
    dsimp only
    refine ⟨ht2wf, fun _ => ?_, fun hff => Bool.noConfusion hff⟩
    show gridZeroCount _ + totalAllowed _ + totalPerms _ <
      gridZeroCount b + totalAllowed b + totalPerms b
    have hgzle := hm.2.2.1
    have htp2' := Nat.le_trans tp2le (Nat.le_of_eq htp1)
    rcases Bool.or_eq_true_iff.mp hcond with hor | h3
    · rcases Bool.or_eq_true_iff.mp hor with h1 | h2
      · have hgzlt := hm.2.2.2 h1
        have := Nat.le_trans (Nat.le_of_eq hta2) (Nat.le_trans ta1le hmta)
        omega
      · have htalt := Nat.lt_of_le_of_lt (Nat.le_of_eq hta2)
          (Nat.lt_of_lt_of_le (ta1lt h2) hmta)
        omega
    · have htplt := Nat.lt_of_lt_of_le (tp2lt h3)
        (Nat.le_trans (Nat.le_of_eq htp1) hmtp)
      have := Nat.le_trans (Nat.le_of_eq hta2) (Nat.le_trans ta1le hmta)
      omega
  · rw [if_neg hcond]
    have hall : ((b.markMandatory).2 || ((b.markMandatory).1.trimAllowedFromPerms).2 ||
        (((b.markMandatory).1.trimAllowedFromPerms).1.trimPermsFromAllowed).2) = false :=
      Bool.eq_false_iff.mpr hcond
    obtain ⟨hor, h3⟩ := Bool.or_eq_false_iff.mp hall
    obtain ⟨h1, h2⟩ := Bool.or_eq_false_iff.mp hor
    have heq : (((b.markMandatory).1.trimAllowedFromPerms).1.trimPermsFromAllowed).1 = b := by
      rw [eq2 h3, eq1 h2, markMandatory_flag_false b h1]
    rw [heq]
    have he1 := escalate_spec Board.trimNakedSets b
      (fun c n hc => ⟨tns_wf c n hc, tns_spec c n⟩) hwf
    obtain ⟨he1wf, e1g, e1rp, e1cp, e1sz, e1ta, e1lt, e1eq⟩ := he1
    by_cases he1f : (escalate Board.trimNakedSets b).2 = true
    · rw [if_pos he1f]
      dsimp only
      refine ⟨he1wf, fun _ => ?_, fun hff => Bool.noConfusion hff⟩
      show gridZeroCount _ + totalAllowed _ + totalPerms _ <
        gridZeroCount b + totalAllowed b + totalPerms b
      have hgz := gridZero_congr e1g
      have htp := totalPerms_congr e1rp e1cp
      have hta := e1lt he1f
      omega
    · rw [if_neg he1f]
      rw [e1eq (Bool.eq_false_iff.mpr he1f)]
      have he2 := escalate_spec Board.trimFoundGroups b
        (fun c n hc => ⟨tfg_wf c n hc, tfg_spec c n⟩) hwf
      obtain ⟨he2wf, e2g, e2rp, e2cp, e2sz, e2ta, e2lt, e2eq⟩ := he2
      refine ⟨he2wf, fun hflag => ?_, fun hflag => e2eq hflag⟩
      show gridZeroCount _ + totalAllowed _ + totalPerms _ <
        gridZeroCount b + totalAllowed b + totalPerms b
      have hgz := gridZero_congr e2g
      have htp := totalPerms_congr e2rp e2cp
      have hta := e2lt hflag
      omega

theorem autoSolveLoop_succ (n : ℕ) (b : Board) :
    autoSolveLoop (n + 1) b =
      if b.solvedRes = SolvedResult.ok then some b
      else if (b.roundBody).2 then autoSolveLoop n (b.roundBody).1
      else some (b.roundBody).1 := rfl

theorem autoSolveLoop_total :
    ∀ (fuel : ℕ) (b : Board), WF b → solveMeasure b < fuel →
      ∃ b2, autoSolveLoop fuel b = some b2 ∧
        (b2.solvedRes = SolvedResult.ok ∨
          ((b2.roundBody).2 = false ∧ (b2.roundBody).1 = b2)) := by
  intro fuel
  induction fuel with
  | zero =>
    intro b _ hlt
    omega
  | succ n ih =>
    intro b hwf hlt
    rw [autoSolveLoop_succ]
    by_cases hsol : b.solvedRes = SolvedResult.ok
    · rw [if_pos hsol]
      exact ⟨b, rfl, Or.inl hsol⟩
    · rw [if_neg hsol]
      have hr := roundBody_spec b hwf
      by_cases hflag : (b.roundBody).2 = true
      · rw [if_pos hflag]
        have hlt2 : solveMeasure (b.roundBody).1 < n := by
          have := hr.2.1 hflag
          omega
        exact ih (b.roundBody).1 hr.1 hlt2
      · rw [if_neg hflag]
        have hfl : (b.roundBody).2 = false := Bool.eq_false_iff.mpr hflag
        have heq := hr.2.2 hfl
        refine ⟨(b.roundBody).1, rfl, Or.inr ⟨?_, ?_⟩⟩
        · rw [heq]
          exact hfl
        · rw [heq]
          exact heq

theorem dims_addObserver (b : Board) (o : Observer) (hd : Dims b) :
    Dims (b.addObserver o) := by
  unfold Board.addObserver
  split
  · exact hd
  · split
    · exact hd
    · exact ⟨hd.1, hd.2.1, hd.2.2.1, hd.2.2.2⟩

theorem dims_parseCellStep (size ri : ℕ) (bb : Board) (cc : ℕ × ℕ)
    (hd : Dims bb) : Dims (parseCellStep size ri bb cc) := by
  unfold parseCellStep
  split
  · split
    · exact hd
    · exact dims_addObserver _ _ hd
  · split
    · exact dims_addObserver _ _ hd
    · exact dims_mark _ _ _ _ hd

theorem dims_boardInit (size : ℕ) : Dims (boardInit size) := by
  refine ⟨by simp [boardInit], ?_, by simp [boardInit, NewAllowed], ?_⟩
  · intro r hr
    show ((List.replicate size (List.replicate size 0)).getD r []).length = size
    rw [List.getD_eq_getElem _ _ (by simpa using hr), List.getElem_replicate]
    simp
  · intro r hr
    show (((NewAllowed size)).getD r []).length = size
    unfold NewAllowed
    rw [List.getD_eq_getElem _ _ (by simpa using hr), List.getElem_replicate]
    simp

theorem dims_boardFromInputs (inputs : List (List ℕ)) : Dims (BoardFromInputs inputs) := by
  unfold BoardFromInputs
  apply dims_trimAllowedFromPerms
  have hfold : Dims (inputs.enum.foldl (parseRowStep (inputs.length - 2))
      (boardInit (inputs.length - 2))) := by
    refine foldl_inv Dims _ _ _ (dims_boardInit _) ?_
    intro bb rc _ hbb
    unfold parseRowStep
    exact foldl_inv Dims _ _ bb hbb
      (fun b2 cc _ h2 => dims_parseCellStep _ _ b2 cc h2)
  exact ⟨hfold.1, hfold.2.1, hfold.2.2.1, hfold.2.2.2⟩

theorem boardFromInputs_wf (inputs : List (List ℕ)) : WF (BoardFromInputs inputs) :=
  ⟨dims_boardFromInputs inputs, boardFromInputs_inv inputs⟩

/-- C4: on every board the constructor produces, AutoSolve terminates with
a final board, reached either because the solved check succeeds or because
a full round of all rules (the three propagation rules, then naked sets and
found groups at every applicable subset size) reports no change, leaving
the board at a fixpoint; the fuel solveMeasure + 1 of the model always
suffices, so the unbounded Go loop stops after at most that many rounds on
any input, including unsolvable, ambiguous or guess-requiring puzzles. -/
theorem C4_autosolve_terminates (inputs : List (List ℕ)) :
    ∃ b2, (BoardFromInputs inputs).autoSolve = some b2 ∧
      (b2.solvedRes = SolvedResult.ok ∨
        ((b2.roundBody).2 = false ∧ (b2.roundBody).1 = b2)) := by
  unfold Board.autoSolve
  exact autoSolveLoop_total (solveMeasure (BoardFromInputs inputs) + 1)
    (BoardFromInputs inputs) (boardFromInputs_wf inputs) (Nat.lt_succ_self _)
